import Mathlib

/-!
Verification of the algorithmic core of the hhoppe-tools library
(`hhoppe_tools/__init__.py`): the `Stats` running-statistics accumulator,
`fit_shape`, `assemble_arrays`, `UnionFind`, and `topological_sort`.

Python floats are modelled by exact rationals `ℚ`; the `±math.inf`
sentinels stored in the `_min`/`_max` fields are modelled by the
two-point extension `XRat` of `ℚ`, and the `math.nan` results of the
division-by-zero paths by the `PyVal` type below.
-/

namespace HhoppeTools

/-- Extended rationals with `-∞` (`⊥`) and `+∞` (`⊤`), modelling the
Python float values that can appear in the `_min`/`_max` fields of `Stats`. -/
abbrev XRat := WithTop (WithBot ℚ)

/-- `math.inf`. -/
def XRat.posInf : XRat := ⊤

/-- `-math.inf`. -/
def XRat.negInf : XRat := ((⊥ : WithBot ℚ) : XRat)

/-- A finite float value. -/
def XRat.fin (q : ℚ) : XRat := ((q : WithBot ℚ) : XRat)

theorem XRat.negInf_le (x : XRat) : XRat.negInf ≤ x := by
  cases x with
  | none => exact le_top
  | some b => exact WithTop.coe_le_coe.mpr bot_le

/-- Result of a Python float computation that can be `math.nan`
(`Stats.avg` and friends on the empty-sample instance). -/
inductive PyVal where
  | nan : PyVal
  | fin : ℚ → PyVal
deriving DecidableEq

/-- Shallow embedding of the `Stats` class: fields `_size`, `_sum`,
`_sum2`, `_min`, `_max`.  Python `Stats.__eq__` compares the tuple of the
five fields, which is exactly structure equality here. -/
structure Stats where
  size : ℕ
  sum : ℚ
  sum2 : ℚ
  min : XRat
  max : XRat
deriving DecidableEq

/-- `a.min() if a.size > 0 else math.inf`: minimum of the samples,
`+∞` for the empty sequence. -/
def listMin (l : List ℚ) : XRat :=
  l.foldr (fun q m => Min.min (XRat.fin q) m) XRat.posInf

/-- `a.max() if a.size > 0 else -math.inf`: maximum of the samples,
`-∞` for the empty sequence. -/
def listMax (l : List ℚ) : XRat :=
  l.foldr (fun q m => Max.max (XRat.fin q) m) XRat.negInf

/-- `Stats(arg)` built from a sequence of samples: size `a.size`,
sum `a.sum()`, sum of squares `np.square(a).sum()`, extrema as in the
source. -/
def Stats.ofList (l : List ℚ) : Stats :=
  { size := l.length
    sum := l.sum
    sum2 := (l.map fun x => x * x).sum
    min := listMin l
    max := listMax l }

/-- `Stats()`: the empty-sample instance
(`size=0, sum=0, sum2=0, min=inf, max=-inf`). -/
def Stats.empty : Stats :=
  { size := 0, sum := 0, sum2 := 0, min := XRat.posInf, max := XRat.negInf }

/-- `Stats.__add__`: componentwise sums with `min`/`max` of the extrema. -/
def Stats.add (s t : Stats) : Stats :=
  { size := s.size + t.size
    sum := s.sum + t.sum
    sum2 := s.sum2 + t.sum2
    min := Min.min s.min t.min
    max := Max.max s.max t.max }

/-- `Stats.__mul__`: statistics whereby each element appears `n` times
(`size*n, sum*n, sum2*n`, extrema unchanged). -/
def Stats.mul (s : Stats) (n : ℕ) : Stats :=
  { size := s.size * n
    sum := s.sum * (n : ℚ)
    sum2 := s.sum2 * (n : ℚ)
    min := s.min
    max := s.max }

theorem listMin_nil : listMin [] = XRat.posInf := rfl

theorem listMin_cons (x : ℚ) (l : List ℚ) :
    listMin (x :: l) = Min.min (XRat.fin x) (listMin l) := rfl

theorem listMax_nil : listMax [] = XRat.negInf := rfl

theorem listMax_cons (x : ℚ) (l : List ℚ) :
    listMax (x :: l) = Max.max (XRat.fin x) (listMax l) := rfl

theorem listMin_append (xs ys : List ℚ) :
    listMin (xs ++ ys) = Min.min (listMin xs) (listMin ys) := by
  induction xs with
  | nil => simp [listMin_nil, XRat.posInf, min_eq_right le_top]
  | cons x xs ih =>
      simp only [List.cons_append, listMin_cons, ih, min_assoc]

theorem listMax_append (xs ys : List ℚ) :
    listMax (xs ++ ys) = Max.max (listMax xs) (listMax ys) := by
  induction xs with
  | nil => simp [listMax_nil, max_eq_right (XRat.negInf_le _)]
  | cons x xs ih =>
      simp only [List.cons_append, listMax_cons, ih, max_assoc]

theorem Stats.ofList_append (xs ys : List ℚ) :
    Stats.ofList (xs ++ ys) = (Stats.ofList xs).add (Stats.ofList ys) := by
  simp only [Stats.ofList, Stats.add, List.length_append, List.sum_append,
    List.map_append, listMin_append, listMax_append]

theorem Stats.addAssoc (s t u : Stats) :
    (s.add t).add u = s.add (t.add u) := by
  simp only [Stats.add, add_assoc, min_assoc, max_assoc]

theorem Stats.addComm (s t : Stats) : s.add t = t.add s := by
  simp only [Stats.add, add_comm, min_comm, max_comm]

theorem Stats.empty_add (s : Stats) : Stats.empty.add s = s := by
  cases s with
  | mk size sum sum2 mn mx =>
      simp [Stats.add, Stats.empty, min_eq_right le_top,
        max_eq_right (XRat.negInf_le _), XRat.posInf]

theorem Stats.add_empty (s : Stats) : s.add Stats.empty = s := by
  rw [Stats.addComm, Stats.empty_add]

/-- `Stats.avg`: `self._sum / self._size if self._size else math.nan`. -/
def Stats.avg (s : Stats) : PyVal :=
  if s.size = 0 then .nan else .fin (s.sum / (s.size : ℚ))

/-- The finite value `max(self._sum2 - self._sum**2 / self._size, 0)`
computed by `Stats.ssd` when the size is nonzero. -/
def Stats.ssdQ (s : Stats) : ℚ :=
  Max.max (s.sum2 - s.sum ^ 2 / (s.size : ℚ)) 0

/-- `Stats.ssd`: `math.nan` if the size is zero, else
`max(self._sum2 - self._sum**2 / self._size, 0)`. -/
def Stats.ssd (s : Stats) : PyVal :=
  if s.size = 0 then .nan else .fin s.ssdQ

/-- `Stats.var`: `math.nan` if size 0, `0.0` if size 1, else
`self.ssd() / (self._size - 1)`. -/
def Stats.var (s : Stats) : PyVal :=
  if s.size = 0 then .nan
  else if s.size = 1 then .fin 0
  else .fin (s.ssdQ / ((s.size : ℚ) - 1))

/-- `Stats.sdv`: `self.var()**0.5`.  The real-valued square root on the
finite branch is modelled by the rational square root `Rat.sqrt`;
`nan**0.5` is `nan` in Python.  The theorems below only inspect the
NaN branch of this function. -/
def Stats.sdv (s : Stats) : PyVal :=
  match s.var with
  | .nan => .nan
  | .fin q => .fin (Rat.sqrt q)

/-- `Stats.rms`: `0.0 if self._size == 0 else (self._sum2 / self._size)**0.5`,
with the square root modelled as in `Stats.sdv`. -/
def Stats.rms (s : Stats) : PyVal :=
  if s.size = 0 then .fin 0 else .fin (Rat.sqrt (s.sum2 / (s.size : ℚ)))

theorem Stats.mulOne (st : Stats) : st.mul 1 = st := by
  simp [Stats.mul]

theorem Stats.extEq {s t : Stats} (h1 : s.size = t.size) (h2 : s.sum = t.sum)
    (h3 : s.sum2 = t.sum2) (h4 : s.min = t.min) (h5 : s.max = t.max) : s = t := by
  cases s; cases t
  cases h1; cases h2; cases h3; cases h4; cases h5
  rfl

theorem Stats.ofList_mul_three (s : List ℚ) :
    (Stats.ofList s).mul 3 = Stats.ofList (s ++ s ++ s) := by
  refine Stats.extEq ?_ ?_ ?_ ?_ ?_ <;>
    simp only [Stats.mul, Stats.ofList, List.length_append, List.sum_append,
      List.map_append, listMin_append, listMax_append, min_self, max_self] <;>
    first
    | omega
    | (push_cast; ring)

/-- C3: statistics of a concatenation equal the `add` of the two
statistics; `add` is associative and commutative with the empty-sample
instance as identity. -/
theorem claim_C3_stats_add_merge :
    (∀ xs ys : List ℚ,
      Stats.ofList (xs ++ ys) = (Stats.ofList xs).add (Stats.ofList ys)) ∧
    (∀ s t u : Stats, (s.add t).add u = s.add (t.add u)) ∧
    (∀ s t : Stats, s.add t = t.add s) ∧
    (∀ s : Stats, Stats.empty.add s = s ∧ s.add Stats.empty = s) :=
  ⟨Stats.ofList_append, Stats.addAssoc, Stats.addComm,
    fun s => ⟨Stats.empty_add s, Stats.add_empty s⟩⟩

/-- C7: scaling by `n` multiplies size, sum and sum of squares by `n`
and leaves min/max unchanged; scaling by 1 is the identity, scaling by 3
equals the statistics of the tripled sample list, and scaling by 0 keeps
the original min/max, so it need not produce the empty-sample instance. -/
theorem claim_C7_stats_scale :
    (∀ st : Stats, ∀ n : ℕ, (st.mul n).size = st.size * n ∧
      (st.mul n).sum = st.sum * (n : ℚ) ∧
      (st.mul n).sum2 = st.sum2 * (n : ℚ) ∧
      (st.mul n).min = st.min ∧ (st.mul n).max = st.max) ∧
    (∀ s : List ℚ, (Stats.ofList s).mul 1 = Stats.ofList s) ∧
    (∀ s : List ℚ, (Stats.ofList s).mul 3 = Stats.ofList (s ++ s ++ s)) ∧
    (∀ s : List ℚ, ((Stats.ofList s).mul 0).size = 0 ∧
      ((Stats.ofList s).mul 0).min = listMin s ∧
      ((Stats.ofList s).mul 0).max = listMax s) ∧
    (Stats.ofList [5]).mul 0 ≠ Stats.empty := by
  refine ⟨fun st n => ⟨rfl, rfl, rfl, rfl, rfl⟩,
    fun s => Stats.mulOne (Stats.ofList s), Stats.ofList_mul_three,
    fun s => ⟨rfl, rfl, rfl⟩, ?_⟩
  intro h
  have hmin := congrArg Stats.min h
  simp only [Stats.mul, Stats.ofList, Stats.empty] at hmin
  rw [listMin_cons, listMin_nil] at hmin
  simp only [XRat.posInf, XRat.fin, inf_top_eq] at hmin
  exact WithTop.coe_ne_top hmin

/-- C8: all `Stats` queries are total; on the empty-sample instance the
mean, sum of squared deviations, variance and standard deviation are NaN,
the min is `+∞`, the max is `-∞`, and the rms is 0; the
division-by-zero paths yield the NaN sentinel exactly when the size is 0,
never an exception. -/
theorem claim_C8_stats_nan_sentinels :
    Stats.ofList [] = Stats.empty ∧
    Stats.empty.avg = PyVal.nan ∧
    Stats.empty.min = XRat.posInf ∧
    Stats.empty.max = XRat.negInf ∧
    Stats.empty.ssd = PyVal.nan ∧
    Stats.empty.var = PyVal.nan ∧
    Stats.empty.sdv = PyVal.nan ∧
    Stats.empty.rms = PyVal.fin 0 ∧
    (∀ s : Stats, s.avg = PyVal.nan ↔ s.size = 0) ∧
    (∀ s : Stats, s.var = PyVal.nan ↔ s.size = 0) ∧
    (∀ s : Stats, s.sdv = PyVal.nan ↔ s.size = 0) ∧
    (∀ s : Stats, s.rms ≠ PyVal.nan) := by
  refine ⟨rfl, rfl, rfl, rfl, rfl, rfl, rfl, rfl, ?_, ?_, ?_, ?_⟩
  · intro s
    by_cases h : s.size = 0 <;> simp [Stats.avg, h]
  · intro s
    by_cases h : s.size = 0 <;> by_cases h1 : s.size = 1 <;> simp [Stats.var, h, h1]
  · intro s
    by_cases h : s.size = 0 <;> by_cases h1 : s.size = 1 <;>
      simp [Stats.sdv, Stats.var, h, h1]
  · intro s
    by_cases h : s.size = 0 <;> simp [Stats.rms, h]

/-! `fit_shape(shape, num)`: dimensions are modelled as `ℤ` (the `-1`
sentinel included), `num` as `ℤ`, Python floor division `//` as
`Int.fdiv`, and `np.prod` over the filtered list as `List.prod`
(with empty product 1 as in numpy). -/

/-- Shallow embedding of `fit_shape`: validates the dimensions, then
replaces a unique `-1` by `(num + slice_size - 1) // slice_size`, or
checks that the fully-specified product is at least `num`. -/
def fitShape (shape : List ℤ) (num : ℤ) : Except String (List ℤ) :=
  if ¬ (∀ d ∈ shape, d ≠ -1 → 0 < d) then
    Except.error "Shape has non-positive dimensions."
  else if 1 < shape.count (-1) then
    Except.error "More than one dimension is -1."
  else if (-1 : ℤ) ∈ shape then
    let sliceSize := (shape.filter fun d => d ≠ -1).prod
    Except.ok (shape.map fun d =>
      if d = -1 then (num + sliceSize - 1).fdiv sliceSize else d)
  else if shape.prod < num then
    Except.error "Shape is insufficiently large for the elements."
  else
    Except.ok shape

theorem map_replace_eq_self (k : ℤ) (shape : List ℤ) (h : (-1 : ℤ) ∉ shape) :
    (shape.map fun d => if d = -1 then k else d) = shape := by
  induction shape with
  | nil => rfl
  | cons d rest ih =>
      have hd : d ≠ -1 := fun hdeq => h (hdeq ▸ List.mem_cons_self d rest)
      have hrest : (-1 : ℤ) ∉ rest := fun hmem => h (List.mem_cons_of_mem d hmem)
      simp [hd, ih hrest]

theorem filter_ne_eq_self (shape : List ℤ) (h : (-1 : ℤ) ∉ shape) :
    (shape.filter fun d => d ≠ -1) = shape := by
  induction shape with
  | nil => rfl
  | cons d rest ih =>
      have hd : d ≠ -1 := fun hdeq => h (hdeq ▸ List.mem_cons_self d rest)
      have hrest : (-1 : ℤ) ∉ rest := fun hmem => h (List.mem_cons_of_mem d hmem)
      rw [List.filter_cons, if_pos (by simp [hd]), ih hrest]

theorem prod_map_replace (k : ℤ) :
    ∀ shape : List ℤ, shape.count (-1) = 1 →
      (shape.map fun d => if d = -1 then k else d).prod =
        (shape.filter fun d => d ≠ -1).prod * k := by
  intro shape
  induction shape with
  | nil => intro h; simp at h
  | cons d rest ih =>
      intro hcount
      by_cases hd : d = -1
      · subst hd
        have hzero : rest.count (-1) = 0 := by
          rw [List.count_cons] at hcount
          simp at hcount
          omega
        have hnm : (-1 : ℤ) ∉ rest := List.count_eq_zero.mp hzero
        have h1 : ((-1 : ℤ) :: rest).map (fun d => if d = -1 then k else d)
            = k :: rest := by
          rw [List.map_cons, if_pos rfl, map_replace_eq_self k rest hnm]
        have h2 : ((-1 : ℤ) :: rest).filter (fun d => d ≠ -1) = rest := by
          rw [List.filter_cons, if_neg (by simp), filter_ne_eq_self rest hnm]
        rw [h1, h2, List.prod_cons, mul_comm]
      · have hone : rest.count (-1) = 1 := by
          rw [List.count_cons_of_ne (fun h => hd h.symm)] at hcount
          exact hcount
        have h1 : (d :: rest).map (fun e => if e = -1 then k else e)
            = d :: rest.map (fun e => if e = -1 then k else e) := by
          rw [List.map_cons, if_neg hd]
        have h2 : (d :: rest).filter (fun e => e ≠ -1)
            = d :: rest.filter (fun e => e ≠ -1) := by
          rw [List.filter_cons, if_pos (by simp [hd])]
        rw [h1, h2, List.prod_cons, List.prod_cons, ih hone, mul_assoc]

/-- C5 (amended): the doctest evaluations hold and the error conditions
are as stated; the sentinel is replaced by the smallest positive value
making the product at least `num` PROVIDED `1 ≤ num` (for `num ≤ 0` the
code can return a non-positive dimension, see the counterexample). -/
theorem claim_C5_fit_shape (shape : List ℤ) (num : ℤ) (hnum : 1 ≤ num) :
    fitShape [3, -1] 10 = Except.ok [3, 4] ∧
    fitShape [5, 2] 11 = Except.error "Shape is insufficiently large for the elements." ∧
    ((∃ d ∈ shape, d ≠ -1 ∧ d ≤ 0) →
      fitShape shape num = Except.error "Shape has non-positive dimensions.") ∧
    ((∀ d ∈ shape, d ≠ -1 → 0 < d) → 1 < shape.count (-1) →
      fitShape shape num = Except.error "More than one dimension is -1.") ∧
    ((∀ d ∈ shape, 0 < d) → shape.prod < num →
      fitShape shape num = Except.error "Shape is insufficiently large for the elements.") ∧
    (shape.count (-1) = 1 → (∀ d ∈ shape, d ≠ -1 → 0 < d) →
      ∃ k : ℤ,
        fitShape shape num = Except.ok (shape.map fun d => if d = -1 then k else d) ∧
        0 < k ∧
        num ≤ (shape.map fun d => if d = -1 then k else d).prod ∧
        ∀ m : ℤ, 0 < m →
          num ≤ (shape.map fun d => if d = -1 then m else d).prod → k ≤ m) := by
  refine ⟨rfl, rfl, ?_, ?_, ?_, ?_⟩
  · rintro ⟨d, hd, hne, hle⟩
    rw [fitShape, if_pos]
    intro hall
    exact absurd (hall d hd hne) (not_lt.mpr hle)
  · intro hall hcount
    rw [fitShape, if_neg (not_not_intro hall), if_pos hcount]
  · intro hall hprod
    have hnm : (-1 : ℤ) ∉ shape := fun hmem =>
      absurd (hall (-1) hmem) (by norm_num)
    have hcount : shape.count (-1) = 0 := List.count_eq_zero.mpr hnm
    rw [fitShape, if_neg (not_not_intro fun d hd _ => hall d hd),
      if_neg (by omega), if_neg hnm, if_pos hprod]
  · intro hcount hall
    have hmem : (-1 : ℤ) ∈ shape := by
      have : 0 < shape.count (-1) := by omega
      exact List.count_pos_iff.mp this
    set s : ℤ := (shape.filter fun d => d ≠ -1).prod with hs_def
    have hs : 0 < s := by
      refine List.prod_pos ?_
      intro x hx
      rw [List.mem_filter] at hx
      exact hall x hx.1 (by simpa using hx.2)
    set k : ℤ := (num + s - 1).fdiv s with hk_def
    have hk_ediv : k = (num + s - 1) / s := Int.fdiv_eq_ediv _ (le_of_lt hs)
    have hk_pos : 0 < k := by
      rw [hk_ediv]
      have : (1 : ℤ) ≤ (num + s - 1) / s := by
        rw [Int.le_ediv_iff_mul_le hs]
        omega
      omega
    have hk_ge : num ≤ s * k := by
      have h1 : num + s - 1 < (k + 1) * s := by
        rw [hk_ediv]
        exact Int.lt_ediv_add_one_mul_self _ hs
      have h2 : (k + 1) * s = s * k + s := by ring
      omega
    refine ⟨k, ?_, hk_pos, ?_, ?_⟩
    · rw [fitShape, if_neg (not_not_intro hall), if_neg (by omega), if_pos hmem]
    · rw [prod_map_replace k shape hcount, ← hs_def]
      exact hk_ge
    · intro m hm hle
      rw [prod_map_replace m shape hcount, ← hs_def] at hle
      rw [hk_ediv]
      have h3 : num + s - 1 < (m + 1) * s := by
        have : (m + 1) * s = s * m + s := by ring
        rw [this, mul_comm s m] at *
        omega
      have := (Int.ediv_lt_iff_lt_mul hs).mpr h3
      omega

/-- C5 witness: the amended theorem applied at the doctest input. -/
theorem claim_C5_fit_shape_witness :
    fitShape [3, -1] 10 = Except.ok [3, 4] :=
  (claim_C5_fit_shape [3, -1] 10 (by decide)).1

/-- C5 counterexample: at `num = 0` the claim as stated fails: the
smallest positive replacement value would be 1 (indeed `0 < 1` and
`0 ≤ [3, 1].prod`), but the code returns the non-positive dimension 0. -/
theorem claim_C5_fit_shape_cex :
    fitShape [3, -1] 0 = Except.ok [3, 0] ∧
    fitShape [3, -1] 0 ≠ Except.ok [3, 1] ∧
    0 < (1 : ℤ) ∧ (0 : ℤ) ≤ ([3, 1] : List ℤ).prod := by
  have h : fitShape [3, -1] 0 = Except.ok [3, 0] := rfl
  refine ⟨h, ?_, by norm_num, by decide⟩
  rw [h]
  simp

/-! `UnionFind`: the `_rep` dictionary is modelled as an
insertion-ordered association list with unique keys (Python dict
semantics); elements are specialized to `ℕ`.  The `while True` loop of
`find` is run on explicit fuel `rep.length + 1`, which is proved
sufficient on every state whose parent chains terminate; `none` results
mark fuel exhaustion (which the invariant rules out). -/

/-- The `_rep` dictionary of a `UnionFind` instance. -/
abbrev UF := List (ℕ × ℕ)

/-- Python `self._rep[key]` lookup (first entry with this key). -/
def dictGet (rep : UF) (key : ℕ) : Option ℕ :=
  match rep with
  | [] => none
  | (k, v) :: rest => if k = key then some v else dictGet rest key

/-- Python `self._rep[key] = val`: overwrite in place, or append. -/
def dictSet (rep : UF) (key val : ℕ) : UF :=
  match rep with
  | [] => [(key, val)]
  | (k, v) :: rest =>
      if k = key then (k, val) :: rest else (k, v) :: dictSet rest key val

/-- The `while True` loop of `UnionFind.find`, with fuel.  Returns the
root, the accumulated `parents`, and the updated dictionary (the
`setdefault(a, a)` call inserts `a → a` when `a` is absent, after which
`parent == a` breaks the loop). -/
def findLoop : ℕ → UF → ℕ → List ℕ → Option (ℕ × List ℕ × UF)
  | 0, _, _, _ => none
  | fuel + 1, rep, a, parents =>
      match dictGet rep a with
      | none => some (a, parents, dictSet rep a a)
      | some parent =>
          if parent = a then some (a, parents, rep)
          else findLoop fuel rep parent (parents ++ [a])

/-- The path-compression pass `for p in parents: self._rep[p] = a`. -/
def compress (rep : UF) (parents : List ℕ) (root : ℕ) : UF :=
  parents.foldl (fun rp p => dictSet rp p root) rep

/-- `UnionFind.find`: elements not in the dictionary are returned
unchanged without touching the state; otherwise walk to the root and
compress the traversed path. -/
def find (rep : UF) (a : ℕ) : Option (ℕ × UF) :=
  if (dictGet rep a).isNone then some (a, rep)
  else
    match findLoop (rep.length + 1) rep a [] with
    | none => none
    | some (root, parents, rep1) => some (root, compress rep1 parents root)

/-- `UnionFind.union`: `self._rep[self.find(b)] = self.find(a)`. -/
def union (rep : UF) (a b : ℕ) : Option UF :=
  match find rep a with
  | none => none
  | some (ra, rep1) =>
      match find rep1 b with
      | none => none
      | some (rb, rep2) => some (dictSet rep2 rb ra)

/-- `UnionFind.same`: `self.find(a) == self.find(b)` (both calls may
compress, and the second sees the state left by the first). -/
def same (rep : UF) (a b : ℕ) : Option (Bool × UF) :=
  match find rep a with
  | none => none
  | some (ra, rep1) =>
      match find rep1 b with
      | none => none
      | some (rb, rep2) => some (decide (ra = rb), rep2)

/-- Parent map of the forest: an element absent from the dictionary is
its own parent. -/
def par (rep : UF) (a : ℕ) : ℕ := (dictGet rep a).getD a

/-- A root is a fixpoint of the parent map. -/
def isRoot (rep : UF) (a : ℕ) : Prop := par rep a = a

/-- The parent chain from `a` ends at the root `r`. -/
inductive Reaches (rep : UF) : ℕ → ℕ → Prop where
  | refl (a : ℕ) (h : isRoot rep a) : Reaches rep a a
  | step (a r : ℕ) (h : Reaches rep (par rep a) r) : Reaches rep a r

/-- State invariant: the dictionary has unique keys and every parent
chain terminates at a root (no cycle of length at least 2). -/
def Inv (rep : UF) : Prop :=
  (rep.map Prod.fst).Nodup ∧ ∀ a, ∃ r, Reaches rep a r

instance (rep : UF) (a : ℕ) : Decidable (isRoot rep a) :=
  Nat.decEq (par rep a) a

theorem dictGet_dictSet_self (rep : UF) (key val : ℕ) :
    dictGet (dictSet rep key val) key = some val := by
  induction rep with
  | nil => simp [dictGet, dictSet]
  | cons kv rest ih =>
      obtain ⟨k, v⟩ := kv
      by_cases h : k = key
      · simp [dictSet, dictGet, h]
      · simp [dictSet, dictGet, h, ih]

theorem dictGet_dictSet_ne (rep : UF) (key val b : ℕ) (h : b ≠ key) :
    dictGet (dictSet rep key val) b = dictGet rep b := by
  have hkb : ¬ key = b := fun heq => h heq.symm
  induction rep with
  | nil => simp [dictGet, dictSet, hkb]
  | cons kv rest ih =>
      obtain ⟨k, v⟩ := kv
      by_cases hk : k = key
      · subst hk
        simp [dictSet, dictGet, hkb]
      · simp [dictSet, dictGet, hk, ih]

theorem keys_dictSet (rep : UF) (key val : ℕ) :
    (dictSet rep key val).map Prod.fst =
      if key ∈ rep.map Prod.fst then rep.map Prod.fst
      else rep.map Prod.fst ++ [key] := by
  induction rep with
  | nil => simp [dictSet]
  | cons kv rest ih =>
      obtain ⟨k, v⟩ := kv
      by_cases h : k = key
      · simp [dictSet, h]
      · simp only [dictSet, if_neg h, List.map_cons, ih]
        by_cases hmem : key ∈ rest.map Prod.fst
        · simp [hmem, Ne.symm h]
        · simp [hmem, Ne.symm h]

theorem nodup_dictSet (rep : UF) (key val : ℕ)
    (h : (rep.map Prod.fst).Nodup) :
    ((dictSet rep key val).map Prod.fst).Nodup := by
  rw [keys_dictSet]
  by_cases hmem : key ∈ rep.map Prod.fst
  · simpa [hmem] using h
  · simp only [hmem, if_false]
    rw [List.nodup_append]
    exact ⟨h, List.nodup_singleton key, by simpa using hmem⟩

theorem par_dictSet (rep : UF) (key val x : ℕ) :
    par (dictSet rep key val) x = if x = key then val else par rep x := by
  by_cases h : x = key
  · subst h
    simp [par, dictGet_dictSet_self]
  · simp [par, dictGet_dictSet_ne rep key val x h, h]

theorem mem_keys_of_dictGet {rep : UF} {x : ℕ} (h : dictGet rep x ≠ none) :
    x ∈ rep.map Prod.fst := by
  induction rep with
  | nil => simp [dictGet] at h
  | cons kv rest ih =>
      obtain ⟨k, v⟩ := kv
      by_cases hk : k = x
      · simp [hk]
      · simp only [dictGet, if_neg hk] at h
        simp only [List.map_cons]
        exact List.mem_cons_of_mem _ (ih h)

theorem Reaches.isRoot_target {rep : UF} {a r : ℕ} (h : Reaches rep a r) :
    isRoot rep r := by
  induction h with
  | refl a h => exact h
  | step a r h ih => exact ih

theorem Reaches.eq_of_isRoot {rep : UF} {a r : ℕ} (h : Reaches rep a r)
    (ha : isRoot rep a) : r = a := by
  induction h with
  | refl a h => rfl
  | step a r h ih =>
      have hpar : isRoot rep (par rep a) := by
        unfold isRoot
        rw [ha]
        exact ha
      exact (ih hpar).trans ha

theorem reaches_congr {rep1 rep2 : UF} (hpar : ∀ x, par rep1 x = par rep2 x)
    {a r : ℕ} (h : Reaches rep1 a r) : Reaches rep2 a r := by
  induction h with
  | refl a h =>
      refine Reaches.refl a ?_
      unfold isRoot at h ⊢
      rw [← hpar a]
      exact h
  | step a r h ih => exact Reaches.step a r ((hpar a) ▸ ih)

theorem reaches_of_iterate {rep : UF} {a r : ℕ} (n : ℕ)
    (hit : (par rep)^[n] a = r) (hr : isRoot rep r) : Reaches rep a r := by
  induction n generalizing a with
  | zero =>
      rw [Function.iterate_zero_apply] at hit
      subst hit
      exact Reaches.refl _ hr
  | succ n ih =>
      refine Reaches.step _ _ (ih ?_)
      rw [← Function.iterate_succ_apply]
      exact hit

theorem iterate_of_reaches {rep : UF} {a r : ℕ} (h : Reaches rep a r) :
    ∃ n, (par rep)^[n] a = r := by
  induction h with
  | refl a h => exact ⟨0, rfl⟩
  | step a r h ih =>
      obtain ⟨n, hn⟩ := ih
      exact ⟨n + 1, by rw [Function.iterate_succ_apply]; exact hn⟩
theorem reaches_unique {rep : UF} {a r1 r2 : ℕ}
    (h1 : Reaches rep a r1) (h2 : Reaches rep a r2) : r1 = r2 := by
  obtain ⟨n1, hn1⟩ := iterate_of_reaches h1
  obtain ⟨n2, hn2⟩ := iterate_of_reaches h2
  have hr1 : par rep r1 = r1 := h1.isRoot_target
  have hr2 : par rep r2 = r2 := h2.isRoot_target
  rcases le_total n1 n2 with h | h
  · have hsplit : (par rep)^[n2] a = (par rep)^[n2 - n1] ((par rep)^[n1] a) := by
      rw [← Function.iterate_add_apply]
      congr 1
      omega
    rw [hn1, Function.iterate_fixed hr1] at hsplit
    rw [← hn2, hsplit]
  · have hsplit : (par rep)^[n1] a = (par rep)^[n1 - n2] ((par rep)^[n2] a) := by
      rw [← Function.iterate_add_apply]
      congr 1
      omega
    rw [hn2, Function.iterate_fixed hr2] at hsplit
    rw [← hn1, hsplit]


/-- On a state with duplicate-free keys, the minimal chain to the root
has length at most `rep.length` (its non-root nodes are distinct keys),
and passes through no intermediate root. -/
theorem reaches_bound {rep : UF} {a r : ℕ}
    (hnd : (rep.map Prod.fst).Nodup) (h : Reaches rep a r) :
    ∃ n, n ≤ rep.length ∧ (par rep)^[n] a = r ∧
      ∀ i < n, ¬ isRoot rep ((par rep)^[i] a) := by
  obtain ⟨m, hm⟩ := iterate_of_reaches h
  have hr : isRoot rep r := h.isRoot_target
  have hex : ∃ i, isRoot rep ((par rep)^[i] a) := ⟨m, by rw [hm]; exact hr⟩
  set n := Nat.find hex with hn_def
  have hPn : isRoot rep ((par rep)^[n] a) := Nat.find_spec hex
  have hmin : ∀ i < n, ¬ isRoot rep ((par rep)^[i] a) :=
    fun i hi => Nat.find_min hex hi
  have hnm : n ≤ m := Nat.find_min' hex (by rw [hm]; exact hr)
  have hit : (par rep)^[n] a = r := by
    have h1 : (par rep)^[m] a = (par rep)^[m - n] ((par rep)^[n] a) := by
      rw [← Function.iterate_add_apply]
      congr 1
      omega
    rw [Function.iterate_fixed hPn] at h1
    rw [← hm, h1]
  refine ⟨n, ?_, hit, hmin⟩
  -- the nodes before the root are distinct non-root keys
  have hkey : ∀ i < n, (par rep)^[i] a ∈ rep.map Prod.fst := by
    intro i hi
    have hroot := hmin i hi
    generalize (par rep)^[i] a = x at hroot ⊢
    refine mem_keys_of_dictGet ?_
    intro hnone
    refine hroot ?_
    unfold isRoot par
    rw [hnone]
    rfl
  have hinj : Set.InjOn (fun i => (par rep)^[i] a) (Finset.range n) := by
    have key : ∀ i j, i < j → j < n → (par rep)^[i] a ≠ (par rep)^[j] a := by
      intro i j hij hjn heq
      have h1 : (par rep)^[(n - j) + j] a = (par rep)^[n - j] ((par rep)^[j] a) :=
        Function.iterate_add_apply _ _ _ _
      have h2 : (par rep)^[(n - j) + i] a = (par rep)^[n - j] ((par rep)^[i] a) :=
        Function.iterate_add_apply _ _ _ _
      have h3 : (n - j) + j = n := by omega
      have h4 : isRoot rep ((par rep)^[(n - j) + i] a) := by
        rw [h2, heq, ← h1, h3]
        exact hPn
      exact hmin _ (by omega) h4
    intro i hi j hj hij
    simp only [Finset.coe_range, Set.mem_Iio] at hi hj
    rcases lt_trichotomy i j with h | h | h
    · exact absurd hij (key i j h hj)
    · exact h
    · exact absurd hij.symm (key j i h hi)
  have hcard : n ≤ ((rep.map Prod.fst).toFinset).card := by
    have h1 : (Finset.range n).card ≤ ((rep.map Prod.fst).toFinset).card := by
      refine Finset.card_le_card_of_injOn (fun i => (par rep)^[i] a) ?_ hinj
      intro i hi
      rw [List.mem_toFinset]
      exact hkey i (Finset.mem_range.mp hi)
    simpa using h1
  calc n ≤ ((rep.map Prod.fst).toFinset).card := hcard
    _ ≤ (rep.map Prod.fst).length := (rep.map Prod.fst).toFinset_card_le
    _ = rep.length := by simp

/-- The list of nodes visited strictly before the root on the chain from
`a`: this is the `parents` list built by the find loop. -/
def pathList (rep : UF) (a : ℕ) : ℕ → List ℕ
  | 0 => []
  | n + 1 => a :: pathList rep (par rep a) n

theorem findLoop_run (rep : UF) :
    ∀ (n a r : ℕ) (parents : List ℕ) (fuel : ℕ),
      (par rep)^[n] a = r → isRoot rep r →
      (∀ i < n, ¬ isRoot rep ((par rep)^[i] a)) → n < fuel →
      ∃ rep1,
        findLoop fuel rep a parents = some (r, parents ++ pathList rep a n, rep1) ∧
        (∀ x, par rep1 x = par rep x) ∧
        ((rep.map Prod.fst).Nodup → (rep1.map Prod.fst).Nodup) ∧
        (∀ p ∈ pathList rep a n, Reaches rep p r) := by
  intro n
  induction n with
  | zero =>
      intro a r parents fuel hit hr hmin hfuel
      rw [Function.iterate_zero_apply] at hit
      subst hit
      obtain ⟨fuel1, rfl⟩ : ∃ f, fuel = f + 1 := ⟨fuel - 1, by omega⟩
      cases hget : dictGet rep a with
      | none =>
          refine ⟨dictSet rep a a, ?_, ?_, ?_, ?_⟩
          · simp [findLoop, hget, pathList]
          · intro x
            rw [par_dictSet]
            by_cases hx : x = a
            · subst hx
              simp [par, hget]
            · simp [hx]
          · intro h
            exact nodup_dictSet rep a a h
          · intro p hp
            simp [pathList] at hp
      | some v =>
          have hv : v = a := by
            have hra := hr
            unfold isRoot par at hra
            rw [hget] at hra
            simpa using hra
          subst hv
          refine ⟨rep, ?_, fun x => rfl, fun h => h, ?_⟩
          · simp [findLoop, hget, pathList]
          · intro p hp
            simp [pathList] at hp
  | succ n ih =>
      intro a r parents fuel hit hr hmin hfuel
      have h0 : ¬ isRoot rep a := by
        have := hmin 0 (Nat.succ_pos n)
        simpa using this
      cases hget : dictGet rep a with
      | none =>
          exact absurd (by unfold isRoot par; rw [hget]; rfl : isRoot rep a) h0
      | some v =>
          have hv : v = par rep a := by
            unfold par
            rw [hget]
            rfl
          have hvne : ¬ v = a := by
            rw [hv]
            exact fun h => h0 h
          obtain ⟨fuel1, rfl⟩ : ∃ f, fuel = f + 1 := ⟨fuel - 1, by omega⟩
          have hit2 : (par rep)^[n] (par rep a) = r := by
            rw [← Function.iterate_succ_apply]
            exact hit
          have hmin2 : ∀ i < n, ¬ isRoot rep ((par rep)^[i] (par rep a)) := by
            intro i hi
            have := hmin (i + 1) (by omega)
            rw [Function.iterate_succ_apply] at this
            exact this
          obtain ⟨rep1, hrun, hpar1, hnd1, hreach1⟩ :=
            ih (par rep a) r (parents ++ [a]) fuel1 hit2 hr hmin2 (by omega)
          refine ⟨rep1, ?_, hpar1, hnd1, ?_⟩
          · have hfl : findLoop (fuel1 + 1) rep a parents
                = findLoop fuel1 rep (par rep a) (parents ++ [a]) := by
              simp [findLoop, hget, hvne, hv]
              intro hc
              exact absurd hc h0
            rw [hfl, hrun]
            simp [pathList]
          · intro p hp
            simp only [pathList, List.mem_cons] at hp
            cases hp with
            | inl hpa =>
                subst hpa
                exact reaches_of_iterate (n + 1) hit hr
            | inr hptail => exact hreach1 p hptail

/-- Redirecting an element `p` of a chain directly to the root `r` it
already reaches (path compression) changes no reachability fact. -/
theorem reaches_dictSet_iff (rep : UF) (p r : ℕ) (hpr : Reaches rep p r)
    (x y : ℕ) : Reaches (dictSet rep p r) x y ↔ Reaches rep x y := by
  have hr : isRoot rep r := hpr.isRoot_target
  have hr2 : isRoot (dictSet rep p r) r := by
    unfold isRoot
    rw [par_dictSet]
    by_cases hrp : r = p
    · simp [hrp]
    · rw [if_neg hrp]
      exact hr
  constructor
  · intro h
    induction h with
    | refl c hc =>
        by_cases hcp : c = p
        · subst hcp
          have hrc : r = c := by
            unfold isRoot at hc
            rw [par_dictSet] at hc
            simpa using hc
          exact hrc ▸ hpr
        · refine Reaches.refl c ?_
          unfold isRoot at hc ⊢
          rw [par_dictSet, if_neg hcp] at hc
          exact hc
    | step c yy h ih =>
        by_cases hcp : c = p
        · subst hcp
          have h2 : Reaches (dictSet rep c r) r yy := by
            rw [par_dictSet, if_pos rfl] at h
            exact h
          have hy : yy = r := h2.eq_of_isRoot hr2
          rw [hy]
          exact hpr
        · rw [par_dictSet, if_neg hcp] at ih
          exact Reaches.step c yy ih
  · intro h
    induction h with
    | refl c hc =>
        by_cases hcp : c = p
        · subst hcp
          have hrc : r = c := hpr.eq_of_isRoot hc
          subst hrc
          exact Reaches.refl _ hr2
        · refine Reaches.refl c ?_
          unfold isRoot at hc ⊢
          rw [par_dictSet, if_neg hcp]
          exact hc
    | step c yy h ih =>
        by_cases hcp : c = p
        · subst hcp
          have hy : yy = r := reaches_unique (Reaches.step _ _ h) hpr
          subst hy
          refine Reaches.step c yy ?_
          rw [par_dictSet, if_pos rfl]
          exact Reaches.refl _ hr2
        · refine Reaches.step c yy ?_
          rw [par_dictSet, if_neg hcp]
          exact ih

/-- Effect of `union`'s final write `rep[rb] = ra` (both roots): the
class of `rb` is renamed to `ra`, all other classes are unchanged. -/
theorem reaches_union_dictSet (rep : UF) (ra rb : ℕ)
    (hra : isRoot rep ra) (hrb : isRoot rep rb) (x y : ℕ) :
    Reaches (dictSet rep rb ra) x y ↔
      ∃ y0, Reaches rep x y0 ∧ y = if y0 = rb then ra else y0 := by
  have hra2 : isRoot (dictSet rep rb ra) ra := by
    unfold isRoot
    rw [par_dictSet]
    by_cases h : ra = rb
    · simp [h]
    · rw [if_neg h]
      exact hra
  constructor
  · intro h
    induction h with
    | refl c hc =>
        by_cases hcb : c = rb
        · subst hcb
          have hab : ra = c := by
            unfold isRoot at hc
            rw [par_dictSet, if_pos rfl] at hc
            exact hc
          exact ⟨c, Reaches.refl c hrb, by simp [hab]⟩
        · refine ⟨c, Reaches.refl c ?_, by simp [hcb]⟩
          unfold isRoot at hc ⊢
          rw [par_dictSet, if_neg hcb] at hc
          exact hc
    | step c yy h ih =>
        by_cases hcb : c = rb
        · subst hcb
          have h2 : Reaches (dictSet rep c ra) ra yy := by
            rw [par_dictSet, if_pos rfl] at h
            exact h
          have hy : yy = ra := h2.eq_of_isRoot hra2
          exact ⟨c, Reaches.refl c hrb, by simp [hy]⟩
        · rw [par_dictSet, if_neg hcb] at ih
          obtain ⟨y0, hy0, hy⟩ := ih
          exact ⟨y0, Reaches.step c y0 hy0, hy⟩
  · rintro ⟨y0, hy0, rfl⟩
    induction hy0 with
    | refl c hc =>
        by_cases hcb : c = rb
        · subst hcb
          rw [if_pos rfl]
          refine Reaches.step c ra ?_
          rw [par_dictSet, if_pos rfl]
          exact Reaches.refl _ hra2
        · rw [if_neg hcb]
          refine Reaches.refl c ?_
          unfold isRoot at hc ⊢
          rw [par_dictSet, if_neg hcb]
          exact hc
    | step c yy h ih =>
        by_cases hcb : c = rb
        · subst hcb
          have hce : par rep c = c := hrb
          have h3 : Reaches rep c yy := by
            rw [hce] at h
            exact h
          have hyy : yy = c := h3.eq_of_isRoot hrb
          subst hyy
          rw [if_pos rfl]
          refine Reaches.step yy ra ?_
          rw [par_dictSet, if_pos rfl]
          exact Reaches.refl _ hra2
        · refine Reaches.step c _ ?_
          rw [par_dictSet, if_neg hcb]
          exact ih

theorem compress_spec (r : ℕ) :
    ∀ (ps : List ℕ) (rep1 rep0 : UF),
      (rep1.map Prod.fst).Nodup →
      (∀ x y, Reaches rep1 x y ↔ Reaches rep0 x y) →
      (∀ p ∈ ps, Reaches rep0 p r) →
      ((compress rep1 ps r).map Prod.fst).Nodup ∧
      (∀ x y, Reaches (compress rep1 ps r) x y ↔ Reaches rep0 x y) := by
  intro ps
  induction ps with
  | nil =>
      intro rep1 rep0 hnd hiff hps
      exact ⟨hnd, hiff⟩
  | cons p rest ih =>
      intro rep1 rep0 hnd hiff hps
      have hp : Reaches rep1 p r := (hiff p r).mpr (hps p (List.mem_cons_self p rest))
      have hstep := reaches_dictSet_iff rep1 p r hp
      have hnd2 := nodup_dictSet rep1 p r hnd
      have hiff2 : ∀ x y, Reaches (dictSet rep1 p r) x y ↔ Reaches rep0 x y :=
        fun x y => (hstep x y).trans (hiff x y)
      have hrest := ih (dictSet rep1 p r) rep0 hnd2 hiff2
        (fun q hq => hps q (List.mem_cons_of_mem p hq))
      simpa [compress] using hrest

/-- Full specification of `find` on an invariant-satisfying state: it
succeeds, returns the root of its argument and a state with the same
reachability (so the same equivalence classes), preserving the invariant. -/
theorem find_spec (rep : UF) (a : ℕ) (hInv : Inv rep) :
    ∃ r rep2, find rep a = some (r, rep2) ∧ Reaches rep a r ∧ Inv rep2 ∧
      ∀ x y, Reaches rep2 x y ↔ Reaches rep x y := by
  obtain ⟨hnd, htot⟩ := hInv
  cases hget : dictGet rep a with
  | none =>
      have hroot : isRoot rep a := by
        unfold isRoot par
        rw [hget]
        rfl
      exact ⟨a, rep, by simp [find, hget], Reaches.refl a hroot, ⟨hnd, htot⟩,
        fun x y => Iff.rfl⟩
  | some v =>
      obtain ⟨r, hr⟩ := htot a
      obtain ⟨n, hn_le, hit, hmin⟩ := reaches_bound hnd hr
      obtain ⟨rep1, hrun, hpar1, hnd1, hreach1⟩ :=
        findLoop_run rep n a r [] (rep.length + 1) hit hr.isRoot_target hmin
          (by omega)
      have hiff1 : ∀ x y, Reaches rep1 x y ↔ Reaches rep x y := fun x y =>
        ⟨fun h => reaches_congr hpar1 h,
         fun h => reaches_congr (fun z => (hpar1 z).symm) h⟩
      obtain ⟨hndc, hiffc⟩ := compress_spec r (pathList rep a n) rep1 rep
        (hnd1 hnd) hiff1 hreach1
      refine ⟨r, compress rep1 (pathList rep a n) r, ?_, hr, ?_, hiffc⟩
      · simp [find, hget, hrun]
      · exact ⟨hndc, fun x => (htot x).imp fun y hy => (hiffc x y).mpr hy⟩

/-- Full specification of `union` on an invariant-satisfying state:
it succeeds and renames the class of `b`'s root to `a`'s root. -/
theorem union_spec (rep : UF) (a b : ℕ) (hInv : Inv rep) :
    ∃ ra rb rep3, union rep a b = some rep3 ∧
      Reaches rep a ra ∧ Reaches rep b rb ∧ Inv rep3 ∧
      ∀ x y, Reaches rep3 x y ↔
        ∃ y0, Reaches rep x y0 ∧ y = if y0 = rb then ra else y0 := by
  obtain ⟨ra, rep1, hfind1, hra, hInv1, hiff1⟩ := find_spec rep a hInv
  obtain ⟨rb, rep2, hfind2, hrb1, hInv2, hiff2⟩ := find_spec rep1 b hInv1
  have hrb : Reaches rep b rb := (hiff1 b rb).mp hrb1
  have hiff12 : ∀ x y, Reaches rep2 x y ↔ Reaches rep x y :=
    fun x y => (hiff2 x y).trans (hiff1 x y)
  have hra_root : isRoot rep2 ra :=
    Reaches.isRoot_target ((hiff12 ra ra).mpr (Reaches.refl ra hra.isRoot_target))
  have hrb_root : isRoot rep2 rb :=
    Reaches.isRoot_target ((hiff12 rb rb).mpr (Reaches.refl rb hrb.isRoot_target))
  have hmain := reaches_union_dictSet rep2 ra rb hra_root hrb_root
  refine ⟨ra, rb, dictSet rep2 rb ra, ?_, hra, hrb, ?_, ?_⟩
  · simp [union, hfind1, hfind2]
  · refine ⟨nodup_dictSet rep2 rb ra hInv2.1, ?_⟩
    intro x
    obtain ⟨y0, hy0⟩ := hInv.2 x
    exact ⟨if y0 = rb then ra else y0,
      (hmain x _).mpr ⟨y0, (hiff12 x y0).mpr hy0, rfl⟩⟩
  · intro x y
    rw [hmain x y]
    constructor
    · rintro ⟨y0, hy0, rfl⟩
      exact ⟨y0, (hiff12 x y0).mp hy0, rfl⟩
    · rintro ⟨y0, hy0, rfl⟩
      exact ⟨y0, (hiff12 x y0).mpr hy0, rfl⟩

/-- Full specification of `same` on an invariant-satisfying state. -/
theorem same_spec (rep : UF) (a b : ℕ) (hInv : Inv rep) :
    ∃ ra rb rep3, same rep a b = some (decide (ra = rb), rep3) ∧
      Reaches rep a ra ∧ Reaches rep b rb ∧ Inv rep3 ∧
      ∀ x y, Reaches rep3 x y ↔ Reaches rep x y := by
  obtain ⟨ra, rep1, hfind1, hra, hInv1, hiff1⟩ := find_spec rep a hInv
  obtain ⟨rb, rep2, hfind2, hrb1, hInv2, hiff2⟩ := find_spec rep1 b hInv1
  exact ⟨ra, rb, rep2, by simp [same, hfind1, hfind2], hra,
    (hiff1 b rb).mp hrb1, hInv2, fun x y => (hiff2 x y).trans (hiff1 x y)⟩

theorem Inv_nil : Inv [] := by
  refine ⟨by simp, fun a => ⟨a, Reaches.refl a rfl⟩⟩

/-- C6: from any state satisfying the invariant, after `union(a, b)` the
query `same(a, b)` succeeds and returns `True`; and after `union(a, b)`
followed by `union(b, c)`, `same(a, c)` succeeds and returns `True`
(union preserves transitivity of the equivalence classes). -/
theorem claim_C6_union_same_transitive (rep : UF) (a b c : ℕ) (hInv : Inv rep) :
    (∀ rep1, union rep a b = some rep1 →
      Option.map Prod.fst (same rep1 a b) = some true) ∧
    (∀ rep1 rep2, union rep a b = some rep1 → union rep1 b c = some rep2 →
      Option.map Prod.fst (same rep2 a c) = some true) := by
  obtain ⟨ra, rb, repu, hu, hra, hrb, hInvu, hiffu⟩ := union_spec rep a b hInv
  have hreach_a : Reaches repu a ra :=
    (hiffu a ra).mpr ⟨ra, hra, by by_cases h : ra = rb <;> simp [h]⟩
  have hreach_b : Reaches repu b ra := (hiffu b ra).mpr ⟨rb, hrb, by simp⟩
  constructor
  · intro rep1 h1
    have he : rep1 = repu := by
      rw [hu] at h1
      exact (Option.some.inj h1).symm
    rw [he]
    obtain ⟨ra2, rb2, rep3, hsame, hra2, hrb2, _, _⟩ := same_spec repu a b hInvu
    have e1 : ra2 = ra := reaches_unique hra2 hreach_a
    have e2 : rb2 = ra := reaches_unique hrb2 hreach_b
    rw [hsame]
    simp [e1, e2]
  · intro rep1 rep2 h1 h2
    have he : rep1 = repu := by
      rw [hu] at h1
      exact (Option.some.inj h1).symm
    rw [he] at h2
    obtain ⟨rbu, rcu, repu2, hu2, hrbu, hrcu, hInvu2, hiffu2⟩ :=
      union_spec repu b c hInvu
    have he2 : rep2 = repu2 := by
      rw [hu2] at h2
      exact (Option.some.inj h2).symm
    rw [he2]
    have e3 : rbu = ra := reaches_unique hrbu hreach_b
    have hreach2_a : Reaches repu2 a (if ra = rcu then rbu else ra) :=
      (hiffu2 a _).mpr ⟨ra, hreach_a, rfl⟩
    have hreach2_c : Reaches repu2 c rbu :=
      (hiffu2 c rbu).mpr ⟨rcu, hrcu, by simp⟩
    obtain ⟨ra3, rc3, rep4, hsame3, hra3, hrc3, _, _⟩ :=
      same_spec repu2 a c hInvu2
    have e4 : ra3 = ra := by
      have h6 := reaches_unique hra3 hreach2_a
      rw [h6, e3]
      by_cases h : ra = rcu <;> simp [h]
    have e5 : rc3 = ra := by
      have h6 := reaches_unique hrc3 hreach2_c
      rw [h6, e3]
    rw [hsame3]
    simp [e4, e5]

/-- C6 witness: the theorem applied to the empty structure with the
elements 0, 1, 2 and the computed intermediate states. -/
theorem claim_C6_union_same_transitive_witness :
    Option.map Prod.fst (same [(1, 0)] 0 1) = some true ∧
    Option.map Prod.fst (same [(1, 0), (0, 0), (2, 0)] 0 2) = some true :=
  ⟨(claim_C6_union_same_transitive [] 0 1 2 Inv_nil).1 [(1, 0)] rfl,
   (claim_C6_union_same_transitive [] 0 1 2 Inv_nil).2 [(1, 0)]
     [(1, 0), (0, 0), (2, 0)] rfl rfl⟩

/-- C9: `find` on an element that is not a key of the dictionary (never
passed to `union`, never compressed) returns the element itself and
returns the state completely unmodified. -/
theorem claim_C9_find_unseen (rep : UF) (x : ℕ) (h : dictGet rep x = none) :
    find rep x = some (x, rep) := by
  simp [find, h]

/-- C9 witness: `find` of 5 on the fresh (empty) structure. -/
theorem claim_C9_find_unseen_witness : find [] 5 = some (5, []) :=
  claim_C9_find_unseen [] 5 rfl

/-- An abstract `UnionFind` operation: `union(a, b)` or `find(a)`. -/
inductive UFOp where
  | unionOp : ℕ → ℕ → UFOp
  | findOp : ℕ → UFOp

/-- Run one operation, keeping the resulting state. -/
def runOp (rep : UF) : UFOp → Option UF
  | UFOp.unionOp a b => union rep a b
  | UFOp.findOp a => Option.map Prod.snd (find rep a)

/-- Run a sequence of operations. -/
def runOps : UF → List UFOp → Option UF
  | rep, [] => some rep
  | rep, op :: rest =>
      match runOp rep op with
      | none => none
      | some rep1 => runOps rep1 rest

theorem runOps_inv : ∀ (ops : List UFOp) (rep : UF), Inv rep →
    ∃ rep2, runOps rep ops = some rep2 ∧ Inv rep2 := by
  intro ops
  induction ops with
  | nil => exact fun rep h => ⟨rep, rfl, h⟩
  | cons op rest ih =>
      intro rep h
      cases op with
      | unionOp a b =>
          obtain ⟨ra, rb, rep1, hu, _, _, hInv1, _⟩ := union_spec rep a b h
          obtain ⟨rep2, hrun, hInv2⟩ := ih rep1 hInv1
          exact ⟨rep2, by simp [runOps, runOp, hu, hrun], hInv2⟩
      | findOp a =>
          obtain ⟨r, rep1, hf, _, hInv1, _⟩ := find_spec rep a h
          obtain ⟨rep2, hrun, hInv2⟩ := ih rep1 hInv1
          exact ⟨rep2, by simp [runOps, runOp, hf, hrun], hInv2⟩

/-- C10: after any finite sequence of `union`/`find` operations starting
from the fresh structure, every operation has succeeded, every parent
chain still reaches a root (the pointer structure has no cycle), and
`find` terminates on every element and returns a root, i.e. an element
mapped to itself by the parent map. -/
theorem claim_C10_find_terminates_returns_root (ops : List UFOp) :
    ∃ rep, runOps [] ops = some rep ∧
      (∀ x, ∃ r, Reaches rep x r) ∧
      (∀ x, ∃ r rep2, find rep x = some (r, rep2) ∧ par rep r = r) := by
  obtain ⟨rep, hrun, hInv⟩ := runOps_inv ops [] Inv_nil
  refine ⟨rep, hrun, hInv.2, ?_⟩
  intro x
  obtain ⟨r, rep2, hf, hr, _, _⟩ := find_spec rep x hInv
  exact ⟨r, rep2, hf, hr.isRoot_target⟩

/-! `topological_sort`: the graph is an insertion-ordered mapping from a
node to the list of its dependents, modelled as an association list over
`ℕ`.  We embed the depth-first traversal that the source implements
(recursive `recurse` over `reversed(graph[node])` with a `seen` set,
started from the keys that appear in no dependency list, followed by the
optional cycle check and a final reversal).  The recursion of `recurse`
is run on explicit fuel bounding the recursion depth; fuel
`(nodesOf g).length + 1` is proved sufficient for every graph, so the
`none` (out-of-fuel) outcome never occurs.  Python exceptions
(`KeyError` from `graph[node]` or `position[node]`, and the
`ValueError('Graph contains a cycle')`) are values of `PyErr`. -/

/-- A Python exception raised by `topological_sort`. -/
inductive PyErr where
  | keyError : PyErr
  | valueError : String → PyErr
deriving DecidableEq

/-- The graph: insertion-ordered association list from node to its
dependents. -/
abbrev Graph := List (ℕ × List ℕ)

/-- `graph[node]` lookup (first entry; Python dict keys are unique). -/
def lookupG : Graph → ℕ → Option (List ℕ)
  | [], _ => none
  | (k, vs) :: rest, n => if k = n then some vs else lookupG rest n

/-- `list(graph)`: the keys in insertion order. -/
def keysG (g : Graph) : List ℕ := g.map Prod.fst

/-- `all_dependents`: every node occurring in some dependency list. -/
def allDependents (g : Graph) : List ℕ := (g.map Prod.snd).flatten

/-- All nodes of the graph: keys and dependents. -/
def nodesOf (g : Graph) : List ℕ := keysG g ++ allDependents g

/-- The edge relation: `v` is a listed dependent of `u`. -/
def edgeG (g : Graph) (u v : ℕ) : Prop := v ∈ (lookupG g u).getD []

/-- A graph is acyclic when its edge relation has no nontrivial loop. -/
def Acyclic (g : Graph) : Prop := ∀ n, ¬ Relation.TransGen (edgeG g) n n

instance (g : Graph) (u v : ℕ) : Decidable (edgeG g u v) :=
  inferInstanceAs (Decidable (v ∈ (lookupG g u).getD []))

/-- `for dependent in reversed(graph[node]): if dependent not in seen:
seen.add(dependent); recurse(dependent)` — the inner loop of `recurse`,
parameterized by the recursive call `vn` (which carries one unit of fuel
less, bounding the recursion depth). -/
def visitListAux
    (vn : ℕ → List ℕ → List ℕ → Option (Except PyErr (List ℕ × List ℕ))) :
    List ℕ → List ℕ → List ℕ → Option (Except PyErr (List ℕ × List ℕ))
  | [], seen, result => some (Except.ok (seen, result))
  | d :: rest, seen, result =>
      if d ∈ seen then visitListAux vn rest seen result
      else
        match vn d (d :: seen) result with
        | none => none
        | some (Except.error e) => some (Except.error e)
        | some (Except.ok (seen1, result1)) => visitListAux vn rest seen1 result1

/-- `recurse(node)`: look up `graph[node]` (a missing key is a
`KeyError`), visit the reversed dependent list, then append `node` to
`result`.  The state is the pair `(seen, result)`; the outer `none`
signals fuel exhaustion (the fuel bounds the recursion depth). -/
def visitNode (g : Graph) : ℕ → ℕ → List ℕ → List ℕ →
    Option (Except PyErr (List ℕ × List ℕ))
  | 0, _, _, _ => none
  | fuel + 1, node, seen, result =>
      match lookupG g node with
      | none => some (Except.error PyErr.keyError)
      | some deps =>
          match visitListAux (visitNode g fuel) deps.reverse seen result with
          | none => none
          | some (Except.error e) => some (Except.error e)
          | some (Except.ok (seen1, result1)) =>
              some (Except.ok (seen1, result1 ++ [node]))

/-- `for node in reversed(list(graph)): if node not in all_dependents:
recurse(node)`. -/
def runStarts (g : Graph) (fuel : ℕ) : List ℕ → List ℕ × List ℕ →
    Option (Except PyErr (List ℕ × List ℕ))
  | [], st => some (Except.ok st)
  | n :: rest, (seen, result) =>
      if n ∈ allDependents g then runStarts g fuel rest (seen, result)
      else
        match visitNode g fuel n seen result with
        | none => none
        | some (Except.error e) => some (Except.error e)
        | some (Except.ok st1) => runStarts g fuel rest st1

/-- `position[n]`: the index of `n` in `result` (the traversal result
has no duplicate, so the first index coincides with the
dictionary comprehension of the source); `none` is a `KeyError`. -/
def position : List ℕ → ℕ → Option ℕ
  | [], _ => none
  | x :: rest, n => if x = n then some 0 else (position rest n).map (· + 1)

/-- Inner loop of the cycle check, over the dependents of one node. -/
def checkDeps (result : List ℕ) (n : ℕ) : List ℕ → Except PyErr Unit
  | [] => Except.ok ()
  | d :: rest =>
      match position result n with
      | none => Except.error PyErr.keyError
      | some pn =>
          match position result d with
          | none => Except.error PyErr.keyError
          | some pd =>
              if pn < pd then Except.error (PyErr.valueError "Graph contains a cycle")
              else checkDeps result n rest

/-- Outer loop of the cycle check, over `graph.items()`. -/
def checkEdges (result : List ℕ) : List (ℕ × List ℕ) → Except PyErr Unit
  | [] => Except.ok ()
  | (n, deps) :: rest =>
      match checkDeps result n deps with
      | Except.error e => Except.error e
      | Except.ok _ => checkEdges result rest

/-- The fallback implementation of `topological_sort` (the code run when
`graphlib` is unavailable; the spec describes exactly this algorithm):
depth-first traversal from the non-dependent keys, optional cycle check,
final reversal. -/
def topoSortDfs (g : Graph) (cycleCheck : Bool) : Option (Except PyErr (List ℕ)) :=
  match runStarts g ((nodesOf g).length + 1) (keysG g).reverse ([], []) with
  | none => none
  | some (Except.error e) => some (Except.error e)
  | some (Except.ok (_, result)) =>
      if cycleCheck then
        match checkEdges result g with
        | Except.error e => some (Except.error e)
        | Except.ok _ => some (Except.ok result.reverse)
      else some (Except.ok result.reverse)

example :
    topoSortDfs [(2, [3]), (3, [4]), (1, [2]), (4, [])] false =
      some (Except.ok [1, 2, 3, 4]) := rfl

example :
    topoSortDfs [(2, [3]), (3, [4, 5]), (1, [2]), (4, [5]), (5, [])] false =
      some (Except.ok [1, 2, 3, 4, 5]) := rfl

example :
    topoSortDfs [(1, [2]), (2, [3]), (3, [])] true =
      some (Except.ok [1, 2, 3]) := rfl

theorem lookupG_some_mem {g : Graph} {u : ℕ} {du : List ℕ}
    (h : lookupG g u = some du) : (u, du) ∈ g := by
  induction g with
  | nil => simp [lookupG] at h
  | cons p rest ih =>
      obtain ⟨k, vs⟩ := p
      by_cases hk : k = u
      · subst hk
        have h2 : vs = du := by simpa [lookupG] using h
        subst h2
        exact List.mem_cons_self _ _
      · simp only [lookupG, if_neg hk] at h
        exact List.mem_cons_of_mem _ (ih h)

theorem mem_keys_of_lookupG {g : Graph} {u : ℕ} {du : List ℕ}
    (h : lookupG g u = some du) : u ∈ keysG g := by
  have := lookupG_some_mem h
  exact List.mem_map.mpr ⟨(u, du), this, rfl⟩

theorem lookupG_isSome_of_mem {g : Graph} {u : ℕ} (h : u ∈ keysG g) :
    ∃ du, lookupG g u = some du := by
  induction g with
  | nil => simp [keysG] at h
  | cons p rest ih =>
      obtain ⟨k, vs⟩ := p
      by_cases hk : k = u
      · exact ⟨vs, by simp [lookupG, hk]⟩
      · simp only [keysG, List.map_cons, List.mem_cons] at h
        rcases h with h | h
        · exact absurd h.symm hk
        · obtain ⟨du, hdu⟩ := ih h
          exact ⟨du, by simp [lookupG, hk, hdu]⟩

theorem lookupG_eq_of_mem {g : Graph} (hnd : (keysG g).Nodup) {u : ℕ}
    {du : List ℕ} (h : (u, du) ∈ g) : lookupG g u = some du := by
  induction g with
  | nil => simp at h
  | cons p rest ih =>
      obtain ⟨k, vs⟩ := p
      simp only [keysG, List.map_cons, List.nodup_cons] at hnd
      rcases List.mem_cons.mp h with h1 | h1
      · have hk : u = k := congrArg Prod.fst h1
        have hv : du = vs := congrArg Prod.snd h1
        subst hk
        subst hv
        simp [lookupG]
      · by_cases hk : k = u
        · subst hk
          exact absurd (List.mem_map.mpr ⟨(k, du), h1, rfl⟩) hnd.1
        · simp only [lookupG, if_neg hk]
          exact ih hnd.2 h1

theorem mem_allDependents_of {g : Graph} {u v : ℕ} {du : List ℕ}
    (h : (u, du) ∈ g) (hv : v ∈ du) : v ∈ allDependents g := by
  unfold allDependents
  exact List.mem_flatten.mpr ⟨du, List.mem_map.mpr ⟨(u, du), h, rfl⟩, hv⟩

theorem mem_allDependents_elim {g : Graph} {v : ℕ}
    (h : v ∈ allDependents g) : ∃ u du, (u, du) ∈ g ∧ v ∈ du := by
  unfold allDependents at h
  obtain ⟨l, hl, hv⟩ := List.mem_flatten.mp h
  obtain ⟨p, hmem, heq⟩ := List.mem_map.mp hl
  refine ⟨p.1, p.2, by rw [Prod.mk.eta]; exact hmem, ?_⟩
  rw [heq]
  exact hv

theorem edgeG_elim {g : Graph} {u v : ℕ} (h : edgeG g u v) :
    ∃ du, lookupG g u = some du ∧ v ∈ du := by
  unfold edgeG at h
  cases hl : lookupG g u with
  | none => rw [hl] at h; simp at h
  | some du => rw [hl] at h; exact ⟨du, rfl, h⟩

theorem edgeG_intro {g : Graph} {u v : ℕ} {du : List ℕ}
    (hl : lookupG g u = some du) (hv : v ∈ du) : edgeG g u v := by
  unfold edgeG
  rw [hl]
  exact hv

theorem edgeG_src_key {g : Graph} {u v : ℕ} (h : edgeG g u v) : u ∈ keysG g := by
  obtain ⟨du, hl, _⟩ := edgeG_elim h
  exact mem_keys_of_lookupG hl

theorem edgeG_tgt_dep {g : Graph} {u v : ℕ} (h : edgeG g u v) :
    v ∈ allDependents g := by
  obtain ⟨du, hl, hv⟩ := edgeG_elim h
  exact mem_allDependents_of (lookupG_some_mem hl) hv

theorem keys_sub_nodes (g : Graph) : keysG g ⊆ nodesOf g := by
  intro x hx
  exact List.mem_append.mpr (Or.inl hx)

theorem deps_sub_nodes (g : Graph) : allDependents g ⊆ nodesOf g := by
  intro x hx
  exact List.mem_append.mpr (Or.inr hx)

/-- Number of graph nodes not yet marked seen: the decreasing measure of
the depth-first recursion. -/
def unseenCount (g : Graph) (seen : List ℕ) : ℕ :=
  ((nodesOf g).toFinset \ seen.toFinset).card

theorem unseenCount_le (g : Graph) (seen : List ℕ) :
    unseenCount g seen ≤ (nodesOf g).length := by
  refine le_trans (Finset.card_le_card ?_) (nodesOf g).toFinset_card_le
  intro x hx
  exact (Finset.mem_sdiff.mp hx).1

theorem unseenCount_mono {g : Graph} {seen seen2 : List ℕ} (h : seen ⊆ seen2) :
    unseenCount g seen2 ≤ unseenCount g seen := by
  refine Finset.card_le_card ?_
  intro x hx
  rw [Finset.mem_sdiff, List.mem_toFinset, List.mem_toFinset] at hx ⊢
  exact ⟨hx.1, fun hc => hx.2 (h hc)⟩

theorem unseenCount_lt {g : Graph} {d : ℕ} {seen : List ℕ}
    (hd : d ∈ nodesOf g) (hns : d ∉ seen) :
    unseenCount g (d :: seen) < unseenCount g seen := by
  refine Finset.card_lt_card ?_
  have hsub : (nodesOf g).toFinset \ (d :: seen).toFinset ⊆
      (nodesOf g).toFinset \ seen.toFinset := by
    intro x hx
    rw [Finset.mem_sdiff, List.mem_toFinset, List.mem_toFinset] at hx ⊢
    exact ⟨hx.1, fun hc => hx.2 (List.mem_cons_of_mem d hc)⟩
  refine (Finset.ssubset_iff_of_subset hsub).mpr ⟨d, ?_, ?_⟩
  · rw [Finset.mem_sdiff, List.mem_toFinset, List.mem_toFinset]
    exact ⟨hd, hns⟩
  · rw [Finset.mem_sdiff, List.mem_toFinset, List.mem_toFinset]
    intro hc
    exact absurd (List.mem_cons_self d seen) (by simpa using fun h => hc.2 h)

/-- `x` occurs at a strictly smaller index than `y`. -/
def idxLt (l : List ℕ) (x y : ℕ) : Prop :=
  ∃ i j, i < j ∧ l.get? i = some x ∧ l.get? j = some y

theorem idxLt_append {l : List ℕ} (t : List ℕ) {x y : ℕ} (h : idxLt l x y) :
    idxLt (l ++ t) x y := by
  obtain ⟨i, j, hij, hi, hj⟩ := h
  have hil : i < l.length := by
    obtain ⟨h1, _⟩ := List.get?_eq_some.mp hi
    exact h1
  have hjl : j < l.length := by
    obtain ⟨h1, _⟩ := List.get?_eq_some.mp hj
    exact h1
  exact ⟨i, j, hij, by rw [List.get?_append hil]; exact hi,
    by rw [List.get?_append hjl]; exact hj⟩

theorem idxLt_concat {l : List ℕ} {x : ℕ} (y : ℕ) (h : x ∈ l) :
    idxLt (l ++ [y]) x y := by
  obtain ⟨i, hi⟩ := List.mem_iff_get?.mp h
  have hil : i < l.length := by
    obtain ⟨h1, _⟩ := List.get?_eq_some.mp hi
    exact h1
  exact ⟨i, l.length, hil, by rw [List.get?_append hil]; exact hi,
    List.get?_concat_length l y⟩

theorem idxLt_reverse {l : List ℕ} {x y : ℕ} (h : idxLt l x y) :
    idxLt l.reverse y x := by
  obtain ⟨i, j, hij, hi, hj⟩ := h
  have hil : i < l.length := by
    obtain ⟨h1, _⟩ := List.get?_eq_some.mp hi
    exact h1
  have hjl : j < l.length := by
    obtain ⟨h1, _⟩ := List.get?_eq_some.mp hj
    exact h1
  refine ⟨l.length - 1 - j, l.length - 1 - i, by omega, ?_, ?_⟩
  · rw [List.get?_reverse (by omega)]
    have he : l.length - 1 - (l.length - 1 - j) = j := by omega
    rw [he]
    exact hj
  · rw [List.get?_reverse (by omega)]
    have he : l.length - 1 - (l.length - 1 - i) = i := by omega
    rw [he]
    exact hi

theorem position_spec :
    ∀ (l : List ℕ) (n i : ℕ), position l n = some i → l.get? i = some n := by
  intro l
  induction l with
  | nil => intro n i h; simp [position] at h
  | cons x rest ih =>
      intro n i h
      by_cases hx : x = n
      · subst hx
        have h2 : i = 0 := by
          have := h
          simp [position] at this
          omega
        subst h2
        rfl
      · simp only [position, if_neg hx, Option.map_eq_some'] at h
        obtain ⟨i0, hi0, rfl⟩ := h
        simpa using ih n i0 hi0

/-- Every already-emitted node has all its dependents emitted earlier. -/
def ClosedL (g : Graph) (result : List ℕ) : Prop :=
  ∀ u ∈ result, ∀ v, edgeG g u v → v ∈ result ∧ idxLt result v u

theorem transGen_rank {g : Graph} (f : ℕ → ℕ)
    (hf : ∀ p ∈ g, ∀ v ∈ p.2, f p.1 < f v) {u v : ℕ}
    (h : Relation.TransGen (edgeG g) u v) : f u < f v := by
  induction h with
  | single h1 =>
      obtain ⟨du, hl, hv⟩ := edgeG_elim h1
      exact hf _ (lookupG_some_mem hl) _ hv
  | tail h1 h2 ih =>
      obtain ⟨du, hl, hv⟩ := edgeG_elim h2
      exact lt_trans ih (hf _ (lookupG_some_mem hl) _ hv)

/-- A rank function increasing along every listed dependency certifies
acyclicity. -/
theorem acyclic_of_rank (g : Graph) (f : ℕ → ℕ)
    (hf : ∀ p ∈ g, ∀ v ∈ p.2, f p.1 < f v) : Acyclic g :=
  fun _ h => lt_irrefl _ (transGen_rank f hf h)

theorem visitListAux_total (g : Graph) (fuel : ℕ)
    (hN : ∀ node seen result, unseenCount g seen < fuel →
      visitNode g fuel node seen result ≠ none ∧
      (∀ e, visitNode g fuel node seen result = some (Except.error e) →
        e = PyErr.keyError) ∧
      (∀ seen1 result1,
        visitNode g fuel node seen result = some (Except.ok (seen1, result1)) →
        seen ⊆ seen1 ∧ ∀ x ∈ seen1, x ∈ seen ∨ x ∈ allDependents g)) :
    ∀ deps seen result, unseenCount g seen ≤ fuel →
      (∀ d ∈ deps, d ∈ allDependents g) →
      visitListAux (visitNode g fuel) deps seen result ≠ none ∧
      (∀ e, visitListAux (visitNode g fuel) deps seen result
          = some (Except.error e) → e = PyErr.keyError) ∧
      (∀ seen1 result1,
        visitListAux (visitNode g fuel) deps seen result
          = some (Except.ok (seen1, result1)) →
        seen ⊆ seen1 ∧ ∀ x ∈ seen1, x ∈ seen ∨ x ∈ allDependents g) := by
  intro deps
  induction deps with
  | nil =>
      intro seen result hf hd
      refine ⟨by simp [visitListAux], ?_, ?_⟩
      · intro e he
        simp [visitListAux] at he
      · intro seen1 result1 h
        simp only [visitListAux, Option.some.injEq, Except.ok.injEq,
          Prod.mk.injEq] at h
        obtain ⟨h1, h2⟩ := h
        subst h1
        exact ⟨fun x hx => hx, fun x hx => Or.inl hx⟩
  | cons d rest ih =>
      intro seen result hf hd
      by_cases hseen : d ∈ seen
      · have hrest := ih seen result hf
          (fun x hx => hd x (List.mem_cons_of_mem _ hx))
        simpa [visitListAux, hseen] using hrest
      · have hd_dep : d ∈ allDependents g := hd d (List.mem_cons_self _ _)
        have hflt : unseenCount g (d :: seen) < fuel :=
          lt_of_lt_of_le (unseenCount_lt (deps_sub_nodes g hd_dep) hseen) hf
        obtain ⟨hn_ne, hn_err, hn_ok⟩ := hN d (d :: seen) result hflt
        cases hv : visitNode g fuel d (d :: seen) result with
        | none => exact absurd hv hn_ne
        | some res =>
            cases res with
            | error e =>
                refine ⟨by simp [visitListAux, hseen, hv], ?_, ?_⟩
                · intro e2 he2
                  simp only [visitListAux, if_neg hseen, hv,
                    Option.some.injEq, Except.error.injEq] at he2
                  exact he2 ▸ hn_err e hv
                · intro s2 r2 h2
                  simp [visitListAux, hseen, hv] at h2
            | ok st =>
                obtain ⟨seen1, result1⟩ := st
                obtain ⟨hsub1, hgrow1⟩ := hn_ok seen1 result1 hv
                have hsub0 : seen ⊆ seen1 :=
                  fun x hx => hsub1 (List.mem_cons_of_mem d hx)
                have hf1 : unseenCount g seen1 ≤ fuel :=
                  le_trans (unseenCount_mono hsub0) hf
                obtain ⟨hr_ne, hr_err, hr_ok⟩ := ih seen1 result1 hf1
                  (fun x hx => hd x (List.mem_cons_of_mem _ hx))
                have heq : visitListAux (visitNode g fuel) (d :: rest) seen result
                    = visitListAux (visitNode g fuel) rest seen1 result1 := by
                  simp [visitListAux, hseen, hv]
                rw [heq]
                refine ⟨hr_ne, hr_err, ?_⟩
                intro s2 r2 h2
                obtain ⟨hsub2, hgrow2⟩ := hr_ok s2 r2 h2
                refine ⟨fun x hx => hsub2 (hsub0 hx), ?_⟩
                intro x hx
                rcases hgrow2 x hx with hx1 | hx1
                · rcases hgrow1 x hx1 with hx2 | hx2
                  · rcases List.mem_cons.mp hx2 with hx3 | hx3
                    · exact Or.inr (hx3 ▸ hd_dep)
                    · exact Or.inl hx3
                  · exact Or.inr hx2
                · exact Or.inr hx1

theorem visitNode_total (g : Graph) :
    ∀ fuel node seen result, unseenCount g seen < fuel →
      visitNode g fuel node seen result ≠ none ∧
      (∀ e, visitNode g fuel node seen result = some (Except.error e) →
        e = PyErr.keyError) ∧
      (∀ seen1 result1,
        visitNode g fuel node seen result = some (Except.ok (seen1, result1)) →
        seen ⊆ seen1 ∧ ∀ x ∈ seen1, x ∈ seen ∨ x ∈ allDependents g) := by
  intro fuel
  induction fuel with
  | zero =>
      intro node seen result h
      omega
  | succ fuel ih =>
      intro node seen result hf
      cases hget : lookupG g node with
      | none =>
          refine ⟨by simp [visitNode, hget], ?_, ?_⟩
          · intro e he
            simp only [visitNode, hget, Option.some.injEq,
              Except.error.injEq] at he
            exact he.symm
          · intro s1 r1 h1
            simp [visitNode, hget] at h1
      | some deps =>
          obtain ⟨hne, herr, hok⟩ := visitListAux_total g fuel ih deps.reverse
            seen result (by omega)
            (fun d hdm =>
              mem_allDependents_of (lookupG_some_mem hget) (List.mem_reverse.mp hdm))
          cases hrun : visitListAux (visitNode g fuel) deps.reverse seen result with
          | none => exact absurd hrun hne
          | some res =>
              cases res with
              | error e =>
                  refine ⟨by simp [visitNode, hget, hrun], ?_, ?_⟩
                  · intro e2 he2
                    simp only [visitNode, hget, hrun, Option.some.injEq,
                      Except.error.injEq] at he2
                    exact he2 ▸ herr e hrun
                  · intro s1 r1 h1
                    simp [visitNode, hget, hrun] at h1
              | ok st =>
                  obtain ⟨s1, r1⟩ := st
                  obtain ⟨hsub, hgrow⟩ := hok s1 r1 hrun
                  refine ⟨by simp [visitNode, hget, hrun], ?_, ?_⟩
                  · intro e he
                    simp [visitNode, hget, hrun] at he
                  · intro s2 r2 h2
                    simp only [visitNode, hget, hrun, Option.some.injEq,
                      Except.ok.injEq, Prod.mk.injEq] at h2
                    obtain ⟨h3, h4⟩ := h2
                    subst h3
                    exact ⟨hsub, hgrow⟩

theorem runStarts_total (g : Graph) :
    ∀ ns seen result,
      runStarts g ((nodesOf g).length + 1) ns (seen, result) ≠ none ∧
      (∀ e, runStarts g ((nodesOf g).length + 1) ns (seen, result)
          = some (Except.error e) → e = PyErr.keyError) := by
  intro ns
  induction ns with
  | nil =>
      intro seen result
      refine ⟨by simp [runStarts], ?_⟩
      intro e he
      simp [runStarts] at he
  | cons n rest ih =>
      intro seen result
      by_cases hdep : n ∈ allDependents g
      · simpa [runStarts, hdep] using ih seen result
      · have hflt : unseenCount g seen < (nodesOf g).length + 1 :=
          lt_of_le_of_lt (unseenCount_le g seen) (by omega)
        obtain ⟨hne, herr, hok⟩ :=
          visitNode_total g ((nodesOf g).length + 1) n seen result hflt
        cases hv : visitNode g ((nodesOf g).length + 1) n seen result with
        | none => exact absurd hv hne
        | some res =>
            cases res with
            | error e =>
                refine ⟨by simp [runStarts, hdep, hv], ?_⟩
                intro e2 he2
                simp only [runStarts, if_neg hdep, hv, Option.some.injEq,
                  Except.error.injEq] at he2
                exact he2 ▸ herr e hv
            | ok st =>
                obtain ⟨s1, r1⟩ := st
                have heq : runStarts g ((nodesOf g).length + 1) (n :: rest) (seen, result)
                    = runStarts g ((nodesOf g).length + 1) rest (s1, r1) := by
                  simp [runStarts, hdep, hv]
                rw [heq]
                exact ih s1 r1

theorem topoSortDfs_ne_none (g : Graph) (cc : Bool) : topoSortDfs g cc ≠ none := by
  obtain ⟨hne, _⟩ := runStarts_total g (keysG g).reverse [] []
  unfold topoSortDfs
  cases hrun : runStarts g ((nodesOf g).length + 1) (keysG g).reverse ([], []) with
  | none => exact absurd hrun hne
  | some res =>
      cases res with
      | error e => simp
      | ok st =>
          obtain ⟨s1, r1⟩ := st
          cases cc with
          | false => simp
          | true =>
              cases hce : checkEdges r1 g with
              | error e => simp [hce]
              | ok u => simp [hce]

theorem topoSortDfs_false_no_valueError (g : Graph) (s : String) :
    topoSortDfs g false ≠ some (Except.error (PyErr.valueError s)) := by
  obtain ⟨_, herr⟩ := runStarts_total g (keysG g).reverse [] []
  unfold topoSortDfs
  cases hrun : runStarts g ((nodesOf g).length + 1) (keysG g).reverse ([], []) with
  | none => simp
  | some res =>
      cases res with
      | error e =>
          have he := herr e hrun
          subst he
          simp
      | ok st =>
          obtain ⟨s1, r1⟩ := st
          simp

theorem topoSortDfs_valueError_after_traversal (g : Graph) (s : String)
    (h : topoSortDfs g true = some (Except.error (PyErr.valueError s))) :
    ∃ out, topoSortDfs g false = some (Except.ok out) := by
  obtain ⟨_, herr⟩ := runStarts_total g (keysG g).reverse [] []
  unfold topoSortDfs at h ⊢
  cases hrun : runStarts g ((nodesOf g).length + 1) (keysG g).reverse ([], []) with
  | none =>
      rw [hrun] at h
      simp at h
  | some res =>
      cases res with
      | error e =>
          have he := herr e hrun
          subst he
          rw [hrun] at h
          simp at h
      | ok st =>
          obtain ⟨s1, r1⟩ := st
          exact ⟨r1.reverse, by simp⟩

/-- Invariant of the traversal state `(seen, result)` relative to the
gray set `G` (the nodes whose `recurse` call is still on the stack):
the emitted list has no duplicates, is closed under dependencies with
the dependencies emitted earlier, contains only keys, every emitted
dependent is marked seen, every seen node is emitted or gray, and only
dependents are ever marked seen. -/
def StInv (g : Graph) (G seen result : List ℕ) : Prop :=
  result.Nodup ∧
  ClosedL g result ∧
  (∀ x ∈ result, x ∈ keysG g) ∧
  (∀ x ∈ result, x ∈ seen ∨ x ∉ allDependents g) ∧
  (∀ x ∈ seen, x ∈ result ∨ x ∈ G) ∧
  (∀ x ∈ seen, x ∈ allDependents g)

theorem visitListAux_good (g : Graph)
    (hacyc : Acyclic g) (fuel : ℕ)
    (hN : ∀ node seen result G,
      StInv g (node :: G) seen result →
      (∀ x ∈ G, Relation.TransGen (edgeG g) x node) →
      node ∈ keysG g →
      (node ∈ seen ∨ node ∉ allDependents g) →
      node ∉ result →
      unseenCount g seen < fuel →
      ∃ seen1 result1 mid,
        visitNode g fuel node seen result = some (Except.ok (seen1, result1)) ∧
        result1 = result ++ mid ++ [node] ∧
        (∀ x ∈ mid, x ∉ seen ∧ x ∈ allDependents g) ∧
        seen ⊆ seen1 ∧
        StInv g G seen1 result1) :
    ∀ deps seen result G2,
      StInv g G2 seen result →
      (∀ d ∈ deps, ∀ x ∈ G2, Relation.TransGen (edgeG g) x d) →
      (∀ d ∈ deps, d ∈ keysG g) →
      (∀ d ∈ deps, d ∈ allDependents g) →
      unseenCount g seen ≤ fuel →
      ∃ seen1 result1 mid,
        visitListAux (visitNode g fuel) deps seen result
          = some (Except.ok (seen1, result1)) ∧
        result1 = result ++ mid ∧
        (∀ x ∈ mid, x ∉ seen ∧ x ∈ allDependents g) ∧
        seen ⊆ seen1 ∧
        StInv g G2 seen1 result1 ∧
        (∀ d ∈ deps, d ∈ result1) := by
  intro deps
  induction deps with
  | nil =>
      intro seen result G2 hSt hanc hdk hda hf
      refine ⟨seen, result, [], by simp [visitListAux], by simp, by simp,
        fun x hx => hx, hSt, by simp⟩
  | cons d rest ih =>
      intro seen result G2 hSt hanc hdk hda hf
      obtain ⟨hnod, hclo, hkeys, hrs, hinv, hsd⟩ := hSt
      have hda_d : d ∈ allDependents g := hda d (List.mem_cons_self _ _)
      by_cases hseen : d ∈ seen
      · have hd_res : d ∈ result := by
          rcases hinv d hseen with h1 | h1
          · exact h1
          · exact absurd (hanc d (List.mem_cons_self _ _) d h1) (hacyc d)
        obtain ⟨seen1, result1, mid, hrun, hshape, hmid, hsub, hSt1, hdone⟩ :=
          ih seen result G2 ⟨hnod, hclo, hkeys, hrs, hinv, hsd⟩
            (fun x hx => hanc x (List.mem_cons_of_mem _ hx))
            (fun x hx => hdk x (List.mem_cons_of_mem _ hx))
            (fun x hx => hda x (List.mem_cons_of_mem _ hx)) hf
        refine ⟨seen1, result1, mid, ?_, hshape, hmid, hsub, hSt1, ?_⟩
        · simpa [visitListAux, hseen] using hrun
        · intro x hx
          rcases List.mem_cons.mp hx with rfl | hx2
          · rw [hshape]
            exact List.mem_append_left _ hd_res
          · exact hdone x hx2
      · have hd_nres : d ∉ result := by
          intro hc
          rcases hrs d hc with h1 | h1
          · exact hseen h1
          · exact h1 hda_d
        have hSt2 : StInv g (d :: G2) (d :: seen) result := by
          refine ⟨hnod, hclo, hkeys, ?_, ?_, ?_⟩
          · intro x hx
            rcases hrs x hx with h1 | h1
            · exact Or.inl (List.mem_cons_of_mem _ h1)
            · exact Or.inr h1
          · intro x hx
            rcases List.mem_cons.mp hx with rfl | hx2
            · exact Or.inr (List.mem_cons_self _ _)
            · rcases hinv x hx2 with h1 | h1
              · exact Or.inl h1
              · exact Or.inr (List.mem_cons_of_mem _ h1)
          · intro x hx
            rcases List.mem_cons.mp hx with rfl | hx2
            · exact hda_d
            · exact hsd x hx2
        obtain ⟨seen1, result1, mid1, hv, hshape1, hmid1, hsub1, hSt1⟩ :=
          hN d (d :: seen) result G2 hSt2
            (hanc d (List.mem_cons_self _ _))
            (hdk d (List.mem_cons_self _ _))
            (Or.inl (List.mem_cons_self _ _)) hd_nres
            (lt_of_lt_of_le (unseenCount_lt (deps_sub_nodes g hda_d) hseen) hf)
        have hsub0 : seen ⊆ seen1 := fun x hx => hsub1 (List.mem_cons_of_mem d hx)
        obtain ⟨seen2, result2, mid2, hrun2, hshape2, hmid2, hsub2, hSt3, hdone2⟩ :=
          ih seen1 result1 G2 hSt1
            (fun x hx => hanc x (List.mem_cons_of_mem _ hx))
            (fun x hx => hdk x (List.mem_cons_of_mem _ hx))
            (fun x hx => hda x (List.mem_cons_of_mem _ hx))
            (le_trans (unseenCount_mono hsub0) hf)
        refine ⟨seen2, result2, mid1 ++ [d] ++ mid2, ?_, ?_, ?_, ?_, hSt3, ?_⟩
        · have heq : visitListAux (visitNode g fuel) (d :: rest) seen result
              = visitListAux (visitNode g fuel) rest seen1 result1 := by
            simp [visitListAux, hseen, hv]
          rw [heq]
          exact hrun2
        · rw [hshape2, hshape1]
          simp [List.append_assoc]
        · intro x hx
          simp only [List.append_assoc, List.mem_append, List.mem_cons,
            List.not_mem_nil, or_false] at hx
          rcases hx with hx1 | hx1 | hx1
          · obtain ⟨h1, h2⟩ := hmid1 x hx1
            exact ⟨fun hc => h1 (List.mem_cons_of_mem _ hc), h2⟩
          · subst hx1
            exact ⟨hseen, hda_d⟩
          · obtain ⟨h1, h2⟩ := hmid2 x hx1
            exact ⟨fun hc => h1 (hsub0 hc), h2⟩
        · exact fun x hx => hsub2 (hsub0 hx)
        · intro x hx
          rcases List.mem_cons.mp hx with rfl | hx2
          · rw [hshape2]
            refine List.mem_append_left _ ?_
            rw [hshape1]
            exact List.mem_append_right _ (List.mem_singleton.mpr rfl)
          · exact hdone2 x hx2

theorem visitNode_good (g : Graph)
    (hclosed : ∀ p ∈ g, ∀ v ∈ p.2, v ∈ keysG g) (hacyc : Acyclic g) :
    ∀ fuel node seen result G,
      StInv g (node :: G) seen result →
      (∀ x ∈ G, Relation.TransGen (edgeG g) x node) →
      node ∈ keysG g →
      (node ∈ seen ∨ node ∉ allDependents g) →
      node ∉ result →
      unseenCount g seen < fuel →
      ∃ seen1 result1 mid,
        visitNode g fuel node seen result = some (Except.ok (seen1, result1)) ∧
        result1 = result ++ mid ++ [node] ∧
        (∀ x ∈ mid, x ∉ seen ∧ x ∈ allDependents g) ∧
        seen ⊆ seen1 ∧
        StInv g G seen1 result1 := by
  intro fuel
  induction fuel with
  | zero =>
      intro node seen result G hSt hanc hkey hns hnr hf
      omega
  | succ fuel ih =>
      intro node seen result G hSt hanc hkey hns hnr hf
      obtain ⟨deps, hget⟩ := lookupG_isSome_of_mem hkey
      have hmemg : (node, deps) ∈ g := lookupG_some_mem hget
      obtain ⟨seen1, result1, mid, hrun, hshape, hmid, hsub, hSt1, hdone⟩ :=
        visitListAux_good g hacyc fuel ih deps.reverse seen result (node :: G) hSt
          (by
            intro d hd x hx
            have hdd : d ∈ deps := List.mem_reverse.mp hd
            rcases List.mem_cons.mp hx with rfl | hx2
            · exact Relation.TransGen.single (edgeG_intro hget hdd)
            · exact Relation.TransGen.tail (hanc x hx2) (edgeG_intro hget hdd))
          (fun d hd => hclosed (node, deps) hmemg d (List.mem_reverse.mp hd))
          (fun d hd => mem_allDependents_of hmemg (List.mem_reverse.mp hd))
          (by omega)
      obtain ⟨hnod1, hclo1, hkeys1, hrs1, hinv1, hsd1⟩ := hSt1
      have hnmid : node ∉ mid := by
        intro hc
        obtain ⟨h1, h2⟩ := hmid node hc
        rcases hns with h3 | h3
        · exact h1 h3
        · exact h3 h2
      have hnres1 : node ∉ result1 := by
        rw [hshape]
        intro hc
        rcases List.mem_append.mp hc with hc1 | hc1
        · exact hnr hc1
        · exact hnmid hc1
      refine ⟨seen1, result1 ++ [node], mid, ?_, ?_, hmid, hsub, ?_⟩
      · simp [visitNode, hget, hrun]
      · rw [hshape]
      · refine ⟨?_, ?_, ?_, ?_, ?_, hsd1⟩
        · rw [List.nodup_append]
          exact ⟨hnod1, List.nodup_singleton _,
            fun x hx hx2 => hnres1 ((List.mem_singleton.mp hx2) ▸ hx)⟩
        · intro u hu v hedge
          rcases List.mem_append.mp hu with hu1 | hu1
          · obtain ⟨hv1, hv2⟩ := hclo1 u hu1 v hedge
            exact ⟨List.mem_append_left _ hv1, idxLt_append [node] hv2⟩
          · have hun : u = node := List.mem_singleton.mp hu1
            subst hun
            obtain ⟨du, hl, hvdu⟩ := edgeG_elim hedge
            have hdeq : du = deps := by
              rw [hget] at hl
              exact (Option.some.inj hl).symm
            subst hdeq
            have hvres : v ∈ result1 := hdone v (List.mem_reverse.mpr hvdu)
            exact ⟨List.mem_append_left _ hvres, idxLt_concat u hvres⟩
        · intro x hx
          rcases List.mem_append.mp hx with hx1 | hx1
          · exact hkeys1 x hx1
          · exact (List.mem_singleton.mp hx1) ▸ hkey
        · intro x hx
          rcases List.mem_append.mp hx with hx1 | hx1
          · exact hrs1 x hx1
          · have hxn : x = node := List.mem_singleton.mp hx1
            subst hxn
            rcases hns with h1 | h1
            · exact Or.inl (hsub h1)
            · exact Or.inr h1
        · intro x hx
          rcases hinv1 x hx with h1 | h1
          · exact Or.inl (List.mem_append_left _ h1)
          · rcases List.mem_cons.mp h1 with rfl | h2
            · exact Or.inl (List.mem_append_right _ (List.mem_singleton.mpr rfl))
            · exact Or.inr h2

theorem runStarts_good (g : Graph)
    (hclosed : ∀ p ∈ g, ∀ v ∈ p.2, v ∈ keysG g) (hacyc : Acyclic g) :
    ∀ ns seen result,
      StInv g [] seen result →
      (∀ n ∈ ns, n ∈ keysG g) →
      ns.Nodup →
      (∀ x ∈ result, x ∈ seen ∨ x ∉ ns) →
      ∃ seen1 result1 mid,
        runStarts g ((nodesOf g).length + 1) ns (seen, result)
          = some (Except.ok (seen1, result1)) ∧
        result1 = result ++ mid ∧
        StInv g [] seen1 result1 ∧
        (∀ n ∈ ns, n ∉ allDependents g → n ∈ result1) := by
  intro ns
  induction ns with
  | nil =>
      intro seen result hSt hk hnd hrns
      exact ⟨seen, result, [], by simp [runStarts], by simp, hSt, by simp⟩
  | cons n rest ih =>
      intro seen result hSt hk hnd hrns
      by_cases hdep : n ∈ allDependents g
      · obtain ⟨seen1, result1, mid, hrun, hshape, hSt1, hstarts⟩ :=
          ih seen result hSt (fun x hx => hk x (List.mem_cons_of_mem _ hx))
            (List.Nodup.of_cons hnd)
            (by
              intro x hx
              rcases hrns x hx with h1 | h1
              · exact Or.inl h1
              · exact Or.inr (fun hc => h1 (List.mem_cons_of_mem _ hc)))
        refine ⟨seen1, result1, mid, by simpa [runStarts, hdep] using hrun,
          hshape, hSt1, ?_⟩
        intro x hx hxd
        rcases List.mem_cons.mp hx with rfl | hx2
        · exact absurd hdep hxd
        · exact hstarts x hx2 hxd
      · obtain ⟨hnod, hclo, hkeys, hrs, hinv, hsd⟩ := hSt
        have hnres : n ∉ result := by
          intro hc
          rcases hrns n hc with h1 | h1
          · exact hdep (hsd n h1)
          · exact h1 (List.mem_cons_self _ _)
        have hSt2 : StInv g [n] seen result := by
          refine ⟨hnod, hclo, hkeys, hrs, ?_, hsd⟩
          intro x hx
          rcases hinv x hx with h1 | h1
          · exact Or.inl h1
          · simp at h1
        obtain ⟨seen1, result1, mid, hv, hshape1, hmid1, hsub1, hSt1⟩ :=
          visitNode_good g hclosed hacyc ((nodesOf g).length + 1) n seen result []
            hSt2 (by simp) (hk n (List.mem_cons_self _ _)) (Or.inr hdep) hnres
            (lt_of_le_of_lt (unseenCount_le g seen) (by omega))
        obtain ⟨seen2, result2, mid2, hrun2, hshape2, hSt3, hstarts2⟩ :=
          ih seen1 result1 hSt1 (fun x hx => hk x (List.mem_cons_of_mem _ hx))
            (List.Nodup.of_cons hnd)
            (by
              intro x hx
              rw [hshape1] at hx
              rcases List.mem_append.mp hx with hx1 | hx1
              · rcases List.mem_append.mp hx1 with hx2 | hx2
                · rcases hrns x hx2 with h1 | h1
                  · exact Or.inl (hsub1 h1)
                  · exact Or.inr (fun hc => h1 (List.mem_cons_of_mem _ hc))
                · obtain ⟨hSt1nod, hSt1clo, hSt1keys, hSt1rs, hSt1inv, hSt1sd⟩ := hSt1
                  rcases hSt1rs x (hshape1 ▸ hx) with h1 | h1
                  · exact Or.inl h1
                  · exact absurd (hmid1 x hx2).2 h1
              · have hxn : x = n := List.mem_singleton.mp hx1
                subst hxn
                exact Or.inr (List.Nodup.not_mem hnd))
        refine ⟨seen2, result2, (mid ++ [n]) ++ mid2, ?_, ?_, hSt3, ?_⟩
        · have heq : runStarts g ((nodesOf g).length + 1) (n :: rest) (seen, result)
              = runStarts g ((nodesOf g).length + 1) rest (seen1, result1) := by
            simp [runStarts, hdep, hv]
          rw [heq]
          exact hrun2
        · rw [hshape2, hshape1]
          simp [List.append_assoc]
        · intro x hx hxd
          rcases List.mem_cons.mp hx with rfl | hx2
          · rw [hshape2]
            refine List.mem_append_left _ ?_
            rw [hshape1]
            exact List.mem_append_right _ (List.mem_singleton.mpr rfl)
          · exact hstarts2 x hx2 hxd

/-- Full correctness of the traversal on a graph with unique keys, all
dependents present as keys, and no cycle: it succeeds and outputs a
permutation of the keys in which every node precedes each of its listed
dependents. -/
theorem topoSortDfs_correct (g : Graph) (hndk : (keysG g).Nodup)
    (hclosed : ∀ p ∈ g, ∀ v ∈ p.2, v ∈ keysG g) (hacyc : Acyclic g) :
    ∃ out, topoSortDfs g false = some (Except.ok out) ∧
      out.Perm (keysG g) ∧ ∀ u v, edgeG g u v → idxLt out u v := by
  have hSt0 : StInv g [] [] [] := by
    refine ⟨List.nodup_nil, ?_, ?_, ?_, ?_, ?_⟩ <;> simp [ClosedL]
  obtain ⟨seenF, resultF, mid, hrun, _, hStF, hstarts⟩ :=
    runStarts_good g hclosed hacyc (keysG g).reverse [] [] hSt0
      (fun n hn => List.mem_reverse.mp hn) (List.nodup_reverse.mpr hndk)
      (by simp)
  obtain ⟨hnodF, hcloF, hkeysF, _, _, _⟩ := hStF
  haveI hfin : Finite {x : ℕ // x ∈ nodesOf g} :=
    (List.finite_toSet (nodesOf g)).to_subtype
  haveI htrans : IsTrans {x : ℕ // x ∈ nodesOf g}
      (fun a b => Relation.TransGen (edgeG g) a.val b.val) :=
    ⟨fun _ _ _ hab hbc => hab.trans hbc⟩
  haveI hirr : IsIrrefl {x : ℕ // x ∈ nodesOf g}
      (fun a b => Relation.TransGen (edgeG g) a.val b.val) :=
    ⟨fun a h => hacyc a.val h⟩
  have hwf : WellFounded (fun a b : {x : ℕ // x ∈ nodesOf g} =>
      Relation.TransGen (edgeG g) a.val b.val) :=
    Finite.wellFounded_of_trans_of_irrefl _
  have hmain : ∀ a : {x : ℕ // x ∈ nodesOf g},
      a.val ∈ keysG g → a.val ∈ resultF := by
    intro a
    refine @WellFounded.induction _ _ hwf
      (fun b => b.val ∈ keysG g → b.val ∈ resultF) a ?_
    intro x ihx hxkey
    by_cases hxd : x.val ∈ allDependents g
    · obtain ⟨u, du, hmem, hvdu⟩ := mem_allDependents_elim hxd
      have hukey : u ∈ keysG g := List.mem_map.mpr ⟨(u, du), hmem, rfl⟩
      have hlu : lookupG g u = some du := lookupG_eq_of_mem hndk hmem
      have hedge : edgeG g u x.val := edgeG_intro hlu hvdu
      have hures : u ∈ resultF :=
        ihx ⟨u, keys_sub_nodes g hukey⟩ (Relation.TransGen.single hedge) hukey
      exact (hcloF u hures x.val hedge).1
    · exact hstarts x.val (List.mem_reverse.mpr hxkey) hxd
  have hkeymem : ∀ k ∈ keysG g, k ∈ resultF :=
    fun k hk => hmain ⟨k, keys_sub_nodes g hk⟩ hk
  have hperm : resultF.Perm (keysG g) := by
    refine List.perm_of_nodup_nodup_toFinset_eq hnodF hndk ?_
    ext x
    rw [List.mem_toFinset, List.mem_toFinset]
    exact ⟨fun h => hkeysF x h, fun h => hkeymem x h⟩
  refine ⟨resultF.reverse, by simp [topoSortDfs, hrun], ?_, ?_⟩
  · exact (List.reverse_perm resultF).trans hperm
  · intro u v hedge
    have hures : u ∈ resultF := hkeymem u (edgeG_src_key hedge)
    obtain ⟨_, hidx⟩ := hcloF u hures v hedge
    exact idxLt_reverse hidx

theorem checkDeps_ok_spec (result : List ℕ) (n : ℕ) :
    ∀ deps, checkDeps result n deps = Except.ok () →
      ∀ d ∈ deps, ∃ pn pd, position result n = some pn ∧
        position result d = some pd ∧ ¬ pn < pd := by
  intro deps
  induction deps with
  | nil =>
      intro h d hd
      simp at hd
  | cons d0 rest ih =>
      intro h d hd
      cases hpn : position result n with
      | none => simp [checkDeps, hpn] at h
      | some pn =>
          cases hpd : position result d0 with
          | none => simp [checkDeps, hpn, hpd] at h
          | some pd =>
              by_cases hlt : pn < pd
              · simp [checkDeps, hpn, hpd, hlt] at h
              · have h2 : checkDeps result n rest = Except.ok () := by
                  simpa [checkDeps, hpn, hpd, hlt] using h
                rcases List.mem_cons.mp hd with rfl | hd2
                · exact ⟨pn, pd, rfl, hpd, hlt⟩
                · obtain ⟨pn2, pd2, h5, h6, h7⟩ := ih h2 d hd2
                  rw [hpn] at h5
                  exact ⟨pn2, pd2, h5, h6, h7⟩

theorem checkEdges_ok_spec (result : List ℕ) :
    ∀ gl : List (ℕ × List ℕ), checkEdges result gl = Except.ok () →
      ∀ p ∈ gl, ∀ d ∈ p.2, ∃ pn pd, position result p.1 = some pn ∧
        position result d = some pd ∧ ¬ pn < pd := by
  intro gl
  induction gl with
  | nil =>
      intro h p hp
      simp at hp
  | cons q rest ih =>
      intro h p hp
      obtain ⟨n, deps⟩ := q
      cases hcd : checkDeps result n deps with
      | error e => simp [checkEdges, hcd] at h
      | ok u =>
          have h2 : checkEdges result rest = Except.ok () := by
            simpa [checkEdges, hcd] using h
          rcases List.mem_cons.mp hp with rfl | hp2
          · exact checkDeps_ok_spec result n deps hcd
          · exact ih h2 p hp2

theorem transGen_position (g : Graph) (result : List ℕ)
    (hok : ∀ p ∈ g, ∀ d ∈ p.2, ∃ pn pd, position result p.1 = some pn ∧
      position result d = some pd ∧ ¬ pn < pd) :
    ∀ u v, Relation.TransGen (edgeG g) u v →
      ∃ pu pv, position result u = some pu ∧ position result v = some pv ∧
        pv ≤ pu := by
  intro u v h
  induction h with
  | single h1 =>
      obtain ⟨du, hl, hv⟩ := edgeG_elim h1
      obtain ⟨pn, pd, h2, h3, h4⟩ := hok (u, du) (lookupG_some_mem hl) _ hv
      exact ⟨pn, pd, h2, h3, by omega⟩
  | tail huv hedge ih =>
      obtain ⟨pu, pm, h2, h3, h4⟩ := ih
      obtain ⟨du, hl, hv⟩ := edgeG_elim hedge
      obtain ⟨pn, pd, h5, h6, h7⟩ := hok _ (lookupG_some_mem hl) _ hv
      rw [h3] at h5
      have hmn : pm = pn := Option.some.inj h5
      exact ⟨pu, pd, h2, h6, by omega⟩

/-- A cycle through two distinct nodes cannot survive the check phase. -/
theorem no_ok_of_bigCycle (g : Graph) (u v : ℕ) (hne : u ≠ v)
    (huv : Relation.TransGen (edgeG g) u v)
    (hvu : Relation.TransGen (edgeG g) v u)
    (result : List ℕ) (hok : checkEdges result g = Except.ok ()) : False := by
  have hspec := checkEdges_ok_spec result g hok
  obtain ⟨pu, pv, h1, h2, h3⟩ := transGen_position g result hspec u v huv
  obtain ⟨pv2, pu2, h4, h5, h6⟩ := transGen_position g result hspec v u hvu
  rw [h2] at h4
  rw [h1] at h5
  have e1 : pv = pv2 := Option.some.inj h4
  have e2 : pu = pu2 := Option.some.inj h5
  have e3 : pu = pv := by omega
  have hgu := position_spec result u pu h1
  have hgv := position_spec result v pv h2
  rw [e3, hgv] at hgu
  exact hne (Option.some.inj hgu).symm

/-- C2 (amended): for a graph with duplicate-free keys whose dependents
are all keys and whose edge relation is acyclic, `topological_sort`
(without cycle check) succeeds, its output is a permutation of the
nodes, and for every edge (v listed as a dependent of u) the node u
appears strictly before v in the output; in particular the example
graph `{1: [2], 2: [3], 3: []}` yields exactly `[1, 2, 3]`. -/
theorem claim_C2_topological_sort (g : Graph) (hndk : (keysG g).Nodup)
    (hclosed : ∀ p ∈ g, ∀ v ∈ p.2, v ∈ keysG g) (hacyc : Acyclic g) :
    (∃ out, topoSortDfs g false = some (Except.ok out) ∧
      out.Perm (keysG g) ∧ ∀ u v, edgeG g u v → idxLt out u v) ∧
    topoSortDfs [(1, [2]), (2, [3]), (3, [])] false = some (Except.ok [1, 2, 3]) :=
  ⟨topoSortDfs_correct g hndk hclosed hacyc, rfl⟩

/-- C2 witness: the theorem applied to the example graph of the claim. -/
theorem claim_C2_topological_sort_witness :
    topoSortDfs [(1, [2]), (2, [3]), (3, [])] false = some (Except.ok [1, 2, 3]) :=
  (claim_C2_topological_sort [(1, [2]), (2, [3]), (3, [])] (by decide) (by decide)
    (acyclic_of_rank _ (fun n => n) (by decide))).2

/-- C2 counterexample: on the acyclic graph `{1: [2]}`, whose node 2
appears only as a dependency, the traversal raises `KeyError` instead of
returning a permutation of the nodes, refuting the claim as stated. -/
theorem claim_C2_topological_sort_cex :
    topoSortDfs [(1, [2])] false = some (Except.error PyErr.keyError) ∧
    (∀ out, topoSortDfs [(1, [2])] false ≠ some (Except.ok out)) ∧
    Acyclic [(1, [2])] := by
  refine ⟨rfl, ?_, acyclic_of_rank _ (fun n => n) (by decide)⟩
  intro out h
  rw [show topoSortDfs [(1, [2])] false = some (Except.error PyErr.keyError)
    from rfl] at h
  simp at h

/-- C4 (amended): on every graph with a cycle through at least two
distinct nodes, the call with `cycle_check` raises an error (never
diverges); the cycle `ValueError` can only be raised after the full
traversal has succeeded (with `cycle_check` off, the same input returns
the candidate order, and the traversal itself never raises the cycle
error).  A self-loop can escape detection, see the counterexample. -/
theorem claim_C4_cycle_check_error (g : Graph)
    (hcyc : ∃ u v, u ≠ v ∧ Relation.TransGen (edgeG g) u v ∧
      Relation.TransGen (edgeG g) v u) :
    topoSortDfs g true ≠ none ∧
    (∀ out, topoSortDfs g true ≠ some (Except.ok out)) ∧
    (∀ s, topoSortDfs g true = some (Except.error (PyErr.valueError s)) →
      ∃ out, topoSortDfs g false = some (Except.ok out)) ∧
    (∀ s, topoSortDfs g false ≠ some (Except.error (PyErr.valueError s))) := by
  obtain ⟨u, v, hne, huv, hvu⟩ := hcyc
  refine ⟨topoSortDfs_ne_none g true, ?_,
    fun s => topoSortDfs_valueError_after_traversal g s,
    fun s => topoSortDfs_false_no_valueError g s⟩
  intro out hout
  cases hrun : runStarts g ((nodesOf g).length + 1) (keysG g).reverse ([], []) with
  | none =>
      have heq : topoSortDfs g true = none := by simp [topoSortDfs, hrun]
      rw [heq] at hout
      simp at hout
  | some res =>
      cases res with
      | error e =>
          have heq : topoSortDfs g true = some (Except.error e) := by
            simp [topoSortDfs, hrun]
          rw [heq] at hout
          simp at hout
      | ok st =>
          obtain ⟨s1, r1⟩ := st
          cases hce : checkEdges r1 g with
          | error e =>
              have heq : topoSortDfs g true = some (Except.error e) := by
                simp [topoSortDfs, hrun, hce]
              rw [heq] at hout
              simp at hout
          | ok u2 => exact no_ok_of_bigCycle g u v hne huv hvu r1 hce

/-- C4 witness: the theorem applied to the two-cycle `{1: [2], 2: [1]}`. -/
theorem claim_C4_cycle_check_error_witness :
    topoSortDfs [(1, [2]), (2, [1])] true ≠ some (Except.ok [1, 2]) :=
  (claim_C4_cycle_check_error [(1, [2]), (2, [1])]
    ⟨1, 2, by decide, Relation.TransGen.single (by decide),
      Relation.TransGen.single (by decide)⟩).2.1 [1, 2]

/-- C4 counterexample: the graph `{0: [1], 1: [1]}` contains a cycle
(the self-loop at node 1), yet the call with `cycle_check` raises no
error and returns `[0, 1]`. -/
theorem claim_C4_cycle_check_cex :
    edgeG [(0, [1]), (1, [1])] 1 1 ∧
    topoSortDfs [(0, [1]), (1, [1])] true = some (Except.ok [0, 1]) :=
  ⟨by decide, rfl⟩

/-! `assemble_arrays`, specialized to rank-2 integer arrays packed into a
rank-2 grid — the configuration of the claim.  The scalar `align`,
`spacing` and `round_to_even` arguments model numpy's broadcast of the
scalar (default) values onto `[num, len(shape)]` resp. `[len(shape)]`.
Arrays are row-major `List (List ℤ)`, assumed rectangular as numpy
arrays are. -/

/-- The `align` argument: `'start'`, `'center'` or `'stop'`. -/
inductive Align where
  | start : Align
  | center : Align
  | stop : Align
deriving DecidableEq

/-- A rank-2 integer array, as a row-major list of rows. -/
abbrev Arr2 := List (List ℤ)

/-- `array.shape[0]`. -/
def numRows (a : Arr2) : ℕ := a.length

/-- `array.shape[1]` (arrays are rectangular). -/
def numCols (a : Arr2) : ℕ := (a.headD []).length

/-- `lengths` for axis 0: for each grid row, the maximum row count of
the arrays in it (cells past the input count contribute 0 rows, like
the `[0] * len(shape)` padding in the source). -/
def axisLengthsRows (arrays : List Arr2) (s0 s1 : ℕ) : List ℕ :=
  (List.range s0).map fun i =>
    ((List.range s1).map fun j => numRows (arrays.getD (i * s1 + j) [])).foldr
      Nat.max 0

/-- `lengths` for axis 1: per grid column, the maximum column count. -/
def axisLengthsCols (arrays : List Arr2) (s0 s1 : ℕ) : List ℕ :=
  (List.range s1).map fun j =>
    ((List.range s0).map fun i => numCols (arrays.getD (i * s1 + j) [])).foldr
      Nat.max 0

/-- `if round_to_even[axis] and total_length % 2 == 1: lengths[-1] += 1`. -/
def adjustEven (lengths : List ℕ) (spacing : ℕ) (rte : Bool)
    (shapeAxis : ℕ) : List ℕ :=
  let total := lengths.sum + spacing * (shapeAxis - 1)
  if rte ∧ total % 2 = 1 then
    lengths.dropLast ++ [(lengths.getLast?.getD 0) + 1]
  else lengths

/-- `spaced_lengths = np.insert(lengths, 0, 0); spaced_lengths[1:-1] += spacing`. -/
def spacedLengths (lengths : List ℕ) (spacing : ℕ) : List ℕ :=
  match lengths with
  | [] => [0]
  | _ => (0 :: (lengths.dropLast.map (· + spacing))) ++ [lengths.getLast?.getD 0]

/-- `np.cumsum` (inclusive prefix sums). -/
def cumsum (l : List ℕ) : List ℕ :=
  (List.range l.length).map fun k => (l.take (k + 1)).sum

/-- The `offset` helper: alignment offset of an element of `size` within
a cell of `length` (both nonnegative here; in the claim's configuration
every array fits its cell). -/
def offsetFn (length size : ℕ) (align : Align) : ℕ :=
  match align with
  | Align.start => 0
  | Align.stop => length - size
  | Align.center => (length - size) / 2

/-- Overwrite `row[c0 : c0 + len(arow)]` with `arow`. -/
def placeRow (row : List ℤ) (arow : List ℤ) (c0 : ℕ) : List ℤ :=
  row.mapIdx fun c x =>
    if c0 ≤ c ∧ c < c0 + arow.length then arow.getD (c - c0) 0 else x

/-- `output_array[tuple(slices)] = array` for a rank-2 array at corner
`(r0, c0)`. -/
def place (out : Arr2) (a : Arr2) (r0 c0 : ℕ) : Arr2 :=
  out.mapIdx fun r row =>
    if r0 ≤ r ∧ r < r0 + a.length then placeRow row (a.getD (r - r0) []) c0
    else row

/-- `assemble_arrays` for rank-2 arrays in a rank-2 grid: fit the grid
shape, compute per-axis slice lengths (max over the slice), round to
even if asked, place inter-cell spacing, take cumulative sums as
origins, fill the output with the background and copy each input array
to its aligned position within its cell. -/
def assembleArrays2 (arrays : List Arr2) (shape : ℤ × ℤ) (background : ℤ)
    (align : Align) (spacing : ℕ) (roundToEven : Bool) : Except String Arr2 :=
  let num := arrays.length
  if num = 0 then Except.error "There must be at least one input array."
  else
    match fitShape [shape.1, shape.2] (num : ℤ) with
    | Except.error e => Except.error e
    | Except.ok fitted =>
        let s0 := (fitted.getD 0 0).toNat
        let s1 := (fitted.getD 1 0).toNat
        let lengths0 := adjustEven (axisLengthsRows arrays s0 s1) spacing roundToEven s0
        let lengths1 := adjustEven (axisLengthsCols arrays s0 s1) spacing roundToEven s1
        let origins0 := cumsum (spacedLengths lengths0 spacing)
        let origins1 := cumsum (spacedLengths lengths1 spacing)
        let outH := origins0.getLast?.getD 0
        let outW := origins1.getLast?.getD 0
        let init : Arr2 := List.replicate outH (List.replicate outW background)
        Except.ok ((List.range num).foldl (fun out i =>
          let i0 := i / s1
          let i1 := i % s1
          let a := arrays.getD i []
          let r0 := origins0.getD i0 0 + offsetFn (lengths0.getD i0 0) (numRows a) align
          let c0 := origins1.getD i1 0 + offsetFn (lengths1.getD i1 0) (numCols a) align
          place out a r0 c0) init)

/-- C1: `assemble_arrays` on the five doctest arrays with `shape=(2,3)`
and the default background 0, center alignment, zero spacing and no
even-rounding returns exactly the 3×7 array of the doctest. -/
theorem claim_C1_assemble_arrays :
    assembleArrays2
      [[[1, 2, 3]], [[5], [6]], [[7]], [[8, 9]], [[3, 4, 5]]]
      (2, 3) 0 Align.center 0 false =
    Except.ok [[1, 2, 3, 0, 5, 0, 7],
               [0, 0, 0, 0, 6, 0, 0],
               [8, 9, 0, 3, 4, 5, 0]] := by
  rfl

end HhoppeTools
